import Mathlib

/-!
Verification of the `gimme` go-version manager (third_party/gimme/gimme,
a bash script) against its natural-language specification.

Shell strings are modelled as lists of characters (`Str`).  External tools
(git, curl, sha256sum) are modelled as oracles passed in as records of
functions; GNU sort / sed / awk text processing is modelled directly from
the invocations appearing in the script.
-/

/-- Shell strings, modelled as lists of characters. -/
abbrev Str : Type := List Char

/-- Embed a Lean string literal as a `Str`. -/
def str (s : String) : Str := s.data

/-- The single-quote character (code point 39). -/
def squote : Char := Char.ofNat 39

/-- Numeric value of a big-endian list of decimal digits
(the empty list has value 0). -/
def digitsVal (l : Str) : Nat := l.foldl (fun n c => 10 * n + (c.toNat - 48)) 0

/-! ## `_version_sort` (gimme lines 121-134)

The script uses `sort --version-sort` when available and otherwise a
fallback pipeline: a `sed` pass padding every 1- or 2-digit dotted
component to three digits, `sort --general-numeric-sort`, and a `sed`
pass stripping the padding again. -/

/-- Tokenize a line into maximal digit runs — recorded as
(numeric value, run length) — and single non-digit characters. -/
def verTokens : Str → List ((Nat × Nat) ⊕ Char)
  | [] => []
  | c :: t =>
    if c.isDigit then
      match verTokens t with
      | .inl (v, k) :: rest => .inl ((c.toNat - 48) * 10 ^ k + v, k + 1) :: rest
      | r => .inl (c.toNat - 48, 1) :: r
    else .inr c :: verTokens t

/-- Lexicographic comparison of token lists: digit runs by numeric
value, other characters by code point. -/
def tokCmp : List ((Nat × Nat) ⊕ Char) → List ((Nat × Nat) ⊕ Char) → Ordering
  | [], [] => .eq
  | [], _ :: _ => .lt
  | _ :: _, [] => .gt
  | .inl (v, _) :: xs, .inl (w, _) :: ys => (compare v w).then (tokCmp xs ys)
  | .inr c :: xs, .inr d :: ys => (compare c d).then (tokCmp xs ys)
  | .inl _ :: _, .inr _ :: _ => .lt
  | .inr _ :: _, .inl _ :: _ => .gt

/-- GNU version-sort comparison (`sort --version-sort`), modelled for
strings of digits and separators: maximal digit runs are compared by
numeric value, all other characters bytewise. -/
def verCmp (x y : Str) : Ordering := tokCmp (verTokens x) (verTokens y)

/-- Version-sort "less or equal" as a Bool. -/
def verLE (x y : Str) : Bool := verCmp x y != Ordering.gt

/-- Native branch of `_version_sort`: `sort --version-sort`
(modelled as a comparison sort with `verLE`). -/
def native_version_sort (l : List Str) : List Str :=
  List.insertionSort (fun x y => verLE x y = true) l

/-- First `sed` pass of the fallback: `s/\.([0-9](\.|$))/.00\1/g`.
Pads a single-digit dotted component with two zeros; per `sed`
semantics, scanning resumes after the replaced text, so the dot that
terminated a match is consumed and cannot start the next match. -/
def padOneF : Nat → Str → Str
  | 0, l => l
  | _ + 1, [] => []
  | f + 1, c :: t =>
    if c = '.' then
      match t with
      | [] => ['.']
      | d :: t2 =>
        if d.isDigit then
          match t2 with
          | [] => ['.', '0', '0', d]
          | r :: rest2 =>
            if r = '.' then '.' :: '0' :: '0' :: d :: '.' :: padOneF f rest2
            else '.' :: padOneF f (d :: r :: rest2)
        else '.' :: padOneF f (d :: t2)
    else c :: padOneF f t

/-- The first `sed` pass, with enough fuel for the whole line. -/
def padOne (l : Str) : Str := padOneF l.length l

/-- Second `sed` pass of the fallback: `s/\.([0-9][0-9](\.|$))/.0\1/g`. -/
def padTwoF : Nat → Str → Str
  | 0, l => l
  | _ + 1, [] => []
  | f + 1, c :: t =>
    if c = '.' then
      match t with
      | d1 :: d2 :: t2 =>
        if d1.isDigit && d2.isDigit then
          match t2 with
          | [] => ['.', '0', d1, d2]
          | r :: rest2 =>
            if r = '.' then '.' :: '0' :: d1 :: d2 :: '.' :: padTwoF f rest2
            else '.' :: padTwoF f (d1 :: d2 :: r :: rest2)
        else '.' :: padTwoF f (d1 :: d2 :: t2)
      | _ => '.' :: padTwoF f t
    else c :: padTwoF f t

/-- The second `sed` pass, with enough fuel for the whole line. -/
def padTwo (l : Str) : Str := padTwoF l.length l

/-- Final `sed` pass of the fallback: `s/\.00*/./g` (a dot followed by
one or more zeros is replaced by a bare dot). -/
def stripZerosF : Nat → Str → Str
  | 0, l => l
  | _ + 1, [] => []
  | f + 1, c :: t =>
    if c = '.' then
      match t with
      | [] => ['.']
      | d :: t2 =>
        if d = '0' then '.' :: stripZerosF f (t2.dropWhile (· == '0'))
        else '.' :: stripZerosF f t
    else c :: stripZerosF f t

/-- The final `sed` pass, with enough fuel for the whole line. -/
def stripPadZeros (l : Str) : Str := stripZerosF l.length l

/-- The padding pipeline applied to one line. -/
def padLine (v : Str) : Str := padTwo (padOne v)

/-- The decimal number `strtod` extracts from the front of a line —
which is what `sort --general-numeric-sort` compares — split into
integer part, fraction digits' value, and fraction length, so that the
line's value is `ip + fp / 10 ^ flen`. -/
def gnumParts (s : Str) : Nat × Nat × Nat :=
  let ip := s.takeWhile Char.isDigit
  let r := s.drop ip.length
  let fp := match r with
    | '.' :: r2 => r2.takeWhile Char.isDigit
    | _ => []
  (digitsVal ip, digitsVal fp, fp.length)

/-- Exact comparison of the two strtod values by cross-multiplying the
denominators: `ip₁ + fp₁/10^k < ip₂ + fp₂/10^m` iff
`ip₁·10^(k+m) + fp₁·10^m < ip₂·10^(k+m) + fp₂·10^k`. -/
def gnumLT (x y : Str) : Bool :=
  decide ((gnumParts x).1 * 10 ^ ((gnumParts x).2.2 + (gnumParts y).2.2)
        + (gnumParts x).2.1 * 10 ^ (gnumParts y).2.2
      < (gnumParts y).1 * 10 ^ ((gnumParts x).2.2 + (gnumParts y).2.2)
        + (gnumParts y).2.1 * 10 ^ (gnumParts x).2.2)

/-- Bytewise comparison of whole lines (GNU sort's last-resort order). -/
def bytesLE : Str → Str → Bool
  | [], _ => true
  | _ :: _, [] => false
  | a :: xs, b :: ys => if a < b then true else if b < a then false else bytesLE xs ys

/-- `sort --general-numeric-sort` order: numeric value of the line's
leading number, ties broken by the whole line bytewise. -/
def gnumLE (x y : Str) : Bool :=
  if gnumLT x y then true
  else if gnumLT y x then false
  else bytesLE x y

/-- Fallback branch of `_version_sort`: pad, general-numeric sort,
strip the padding. -/
def fallback_version_sort (l : List Str) : List Str :=
  (List.insertionSort (fun x y => gnumLE x y = true) (l.map padLine)).map stripPadZeros

/-! ## `_resolve_version` (gimme lines 588-638) -/

/-- Character class `[0-9.]`. -/
def isDigitDot (c : Char) : Bool := c.isDigit || c == '.'

/-- bash test `[[ base =~ ^[0-9.]+$ ]]` (line 620). -/
def baseValidForX (b : Str) : Bool := !b.isEmpty && b.all isDigitDot

/-- bash test `[[ ver =~ search ]]` where `search` is
`^base(\.[0-9.]+)?$` with the dots of `base` escaped (line 625):
the line equals `base`, or extends it with a dot and a nonempty run of
digits and dots. -/
def wildcardMatch (base v : Str) : Bool :=
  v == base ||
    (v.take (base.length + 1) == base ++ ['.'] &&
      !(v.drop (base.length + 1)).isEmpty &&
      (v.drop (base.length + 1)).all isDigitDot)

/-- Read-loop of lines 627-630: the last catalog line matching the
pattern (the catalog file is scanned top to bottom and each match
overwrites `last`). -/
def lastWildcardMatch (base : Str) (catalog : List Str) : Option Str :=
  catalog.foldl (fun acc v => if wildcardMatch base v then some v else acc) none

/-- case pattern `*.x` (line 602). -/
def endsWithDotX (s : Str) : Bool :=
  match s.reverse with
  | 'x' :: '.' :: _ => true
  | _ => false

/-- Parameter expansion `${1%.x}` (line 617). -/
def stripDotX (s : Str) : Str :=
  match s.reverse with
  | 'x' :: '.' :: r => r.reverse
  | _ => s

/-- extglob test `+([[:digit:]]).+([[:digit:]])*` of
`_assert_version_given` (line 728): one or more digits, a dot, one or
more digits, then anything. -/
def looksNumericVersion (v : Str) : Bool :=
  let d := v.takeWhile Char.isDigit
  !d.isEmpty &&
    (match v.drop d.length with
     | '.' :: r2 => !(r2.takeWhile Char.isDigit).isEmpty
     | _ => false)

/-- Ambient state consulted by `_resolve_version`: the version-sorted
known-versions catalog, the text the stable/oldstable caches would
print, and an oracle for the git-based acceptance path of
`_assert_version_given` (lines 735-748; that path shells out to git and
is outside the wildcard logic under study). -/
structure ResolveEnv where
  catalog : List Str
  currStable : Str
  oldStable : Str
  typeUsesGit : Bool
  gitResolveOk : Str → Bool

/-- `_resolve_version spec`: the text printed to stdout and the return
status (0 resolved, 2 specifier unknown). -/
def resolve_version (env : ResolveEnv) (spec : Str) : Str × Nat :=
  if spec == str "stable" then (env.currStable, 0)
  else if spec == str "oldstable" then (env.oldStable, 0)
  else if spec == str "tip" then (str "tip", 0)
  else if endsWithDotX spec then
    let base := stripDotX spec
    if !baseValidForX base then ([], 2)
    else
      match lastWildcardMatch base env.catalog with
      | some last => (last, 0)
      | none => (spec, 2)
  else
    (spec,
      if !spec.isEmpty &&
          (looksNumericVersion spec || (env.typeUsesGit && env.gitResolveOk spec))
        then 0 else 2)

/-! ## `_checkout` (gimme lines 218-271) -/

/-- Git operations `_checkout` can issue against the working repo. -/
inductive GitOp where
  /-- `git -C dir reset -q --hard <ref>` (line 228, the commit-sha path). -/
  | reset (ref : Str)
  /-- `try_spec`: `git -C dir reset -q --hard <ref> --` (line 244). -/
  | probe (ref : Str)
  /-- `git rev-parse --verify -q "<spec>^\x7bobject\x7d"` (line 262). -/
  | revParseObj (spec : Str)
  /-- `git rev-parse --verify -q --short=12 <rev>` (line 264). -/
  | revParseShort (rev : Str)
deriving DecidableEq

/-- Oracle describing the state of the git working repository. -/
structure GitRepo where
  /-- whether `git reset -q --hard <ref>` succeeds. -/
  resetOk : Str → Bool
  /-- result of `git rev-parse --verify -q "<spec>^\x7bobject\x7d"`. -/
  revParse : Str → Option Str
  /-- result of `git rev-parse --verify -q --short=12 <rev>`. -/
  shortRev : Str → Option Str

/-- bash test `[[ spec =~ ^[0-9a-f]{6,}$ ]]` (line 224). -/
def isCommitHex (s : Str) : Bool :=
  decide (6 ≤ s.length) && s.all (fun c => c.isDigit || ('a' ≤ c && c ≤ 'f'))

/-- The character class `[@^~:{}]` of the `disallow` pattern (line 238). -/
def gitModChars : List Char := ['@', '^', '~', ':', Char.ofNat 123, Char.ofNat 125]

/-- bash test `[[ spec =~ $disallow ]]`. -/
def hasGitModChar (s : Str) : Bool := s.any (fun c => gitModChars.contains c)

/-- The symbolic candidates probed in order (lines 249-253):
`origin/<spec>`, `origin/go<spec>`, `origin/master` (only for "tip"),
`refs/tags/<spec>`, `refs/tags/go<spec>`. -/
def probe_candidates (spec : Str) : List Str :=
  [str "origin/" ++ spec, str "origin/go" ++ spec] ++
    (if spec == str "tip" then [str "origin/master"] else []) ++
    [str "refs/tags/" ++ spec, str "refs/tags/go" ++ spec]

/-- The `try_spec ... || try_spec ...` chain: issue probes until one
resets successfully; reports the issued operations and success. -/
def probe_specs (r : GitRepo) : List Str → List GitOp × Bool
  | [] => ([], false)
  | c :: cs =>
    if r.resetOk c then ([GitOp.probe c], true)
    else
      let t := probe_specs r cs
      (GitOp.probe c :: t.1, t.2)

/-- The relative-revision path (lines 257-267): reset to
`origin/master`, rev-parse the spec as an object, reset to it, and
print its 12-character short hash. -/
def checkout_rel (r : GitRepo) (spec : Str) : List GitOp × Option Str :=
  if r.resetOk (str "origin/master") then
    match r.revParse spec with
    | some rev =>
      if r.resetOk rev then
        ([GitOp.probe (str "origin/master"), GitOp.revParseObj spec,
            GitOp.probe rev, GitOp.revParseShort rev],
          r.shortRev rev)
      else
        ([GitOp.probe (str "origin/master"), GitOp.revParseObj spec,
            GitOp.probe rev], none)
    | none => ([GitOp.probe (str "origin/master"), GitOp.revParseObj spec], none)
  else ([GitOp.probe (str "origin/master")], none)

/-- `_checkout spec dir`: the git operations issued and, on success
(`some out`), the text printed to stdout (empty except on the
relative-revision path). -/
def checkout (r : GitRepo) (spec : Str) : List GitOp × Option Str :=
  if isCommitHex spec then
    ([GitOp.reset spec], if r.resetOk spec then some [] else none)
  else if hasGitModChar spec then
    checkout_rel r (if spec == str "@" then str "HEAD" else spec)
  else
    let p := probe_specs r (probe_candidates spec)
    if p.2 then (p.1, some [])
    else
      let t := checkout_rel r spec
      (p.1 ++ t.1, t.2)

/-! ## `_do_curls` (gimme lines 137-159) -/

/-- Oracle for the network and the checksum tool: `fetch u` is the
content `_do_curl u f` would store (none = curl failure), `sha c` the
sha256 hex digest of content `c`.  A fetched digest file is rewritten
as `"<digest>  <artifact>"` before `_sha256sum -c`, so the check
succeeds exactly when the fetched digest equals the artifact's hash. -/
structure CurlWorld where
  fetch : Str → Option Str
  sha : Str → Str

/-- On-disk download state: the artifact file `f` and the recorded
digest file `f.sha256`. -/
structure DlFiles where
  file : Option Str
  digest : Option Str
deriving DecidableEq

/-- `_sha256sum -c f.sha256` (line 140): both files present and the
recorded digest matches the artifact's hash. -/
def shaCheckOk (w : CurlWorld) (st : DlFiles) : Bool :=
  match st.file, st.digest with
  | some c, some h => h == w.sha c
  | _, _ => false

/-- The candidate loop of `_do_curls` (lines 143-158): returns the
fetched URLs in order, the final file state, and overall success.
A candidate whose artifact fetch fails is skipped; a fetched digest
that fails verification abandons the candidate (`continue`); a missing
digest file accepts the artifact unverified (the inner `if` fails and
the bare `return` then reports status 0); exhaustion removes the
artifact (`rm -f f`) and fails. -/
def do_curls_loop (w : CurlWorld) (st : DlFiles) : List Str → List Str × DlFiles × Bool
  | [] => ([], ⟨none, st.digest⟩, false)
  | u :: us =>
    match w.fetch u with
    | none =>
      let r := do_curls_loop w st us
      (u :: r.1, r.2)
    | some c =>
      match w.fetch (u ++ str ".sha256") with
      | none => ([u, u ++ str ".sha256"], ⟨some c, st.digest⟩, true)
      | some d =>
        if d == w.sha c then ([u, u ++ str ".sha256"], ⟨some c, some d⟩, true)
        else
          let r := do_curls_loop w ⟨some c, some d⟩ us
          (u :: (u ++ str ".sha256") :: r.1, r.2)

/-- `_do_curls f url...`: short-circuits if the already-present artifact
verifies against the already-present digest file (lines 140-142),
otherwise runs the candidate loop. -/
def do_curls (w : CurlWorld) (st : DlFiles) (urls : List Str) : List Str × DlFiles × Bool :=
  if shaCheckOk w st then ([], st, true) else do_curls_loop w st urls

/-- Claim-side classification of a single candidate: its artifact
fetches and either no digest file is reachable (accepted unverified) or
the fetched digest verifies. -/
def candidateGood (w : CurlWorld) (u : Str) : Bool :=
  match w.fetch u with
  | none => false
  | some c =>
    match w.fetch (u ++ str ".sha256") with
    | none => true
    | some d => d == w.sha c

/-- Claim-side trace of one attempted candidate: the artifact URL, plus
the digest URL when the artifact fetch succeeded. -/
def candidateAttempts (w : CurlWorld) (u : Str) : List Str :=
  match w.fetch u with
  | none => [u]
  | some _ => [u, u ++ str ".sha256"]

/-! ## `_update_remote_known_list_if_needed` (gimme lines 544-572)
and `_file_older_than_secs` (lines 696-703) -/

/-- `_file_older_than_secs file secs`: true when the file is missing or
its age exceeds `secs` (strictly). -/
def file_older_than_secs (mtime : Option Int) (now ageSecs : Int) : Bool :=
  match mtime with
  | none => true
  | some ts => decide (now - ts > ageSecs)

/-- Character class `[[:alnum:]\.]` of the catalog line pattern. -/
def isAlnumDot (c : Char) : Bool := c.isAlpha || c.isDigit || c == '.'

/-- Match `go([[:alnum:]\.]*)\.src.*` anchored at the front of `l`:
the greedy group takes the longest run of alnum/dot characters that is
still followed by the literal `.src`. -/
def goSrcMatchHere (l : Str) : Option Str :=
  match l with
  | 'g' :: 'o' :: rest =>
    (((List.range ((rest.takeWhile isAlnumDot).length + 1)).reverse.find? fun k =>
        (rest.drop k).take 4 == str ".src")).map fun k => rest.take k
  | _ => none

/-- bash `[[ line =~ $exp ]]` with `exp='go([[:alnum:]\.]*)\.src.*'`
(line 562): leftmost match wins; yields `BASH_REMATCH[1]`. -/
def goSrcExtract : Str → Option Str
  | [] => none
  | a :: t =>
    match goSrcMatchHere (a :: t) with
    | some g => some g
    | none => goSrcExtract t

/-- `uniq`: collapse adjacent duplicate lines. -/
def uniqAdjacent : List Str → List Str
  | [] => []
  | [a] => [a]
  | a :: b :: rest =>
    if a == b then uniqAdjacent (b :: rest) else a :: uniqAdjacent (b :: rest)

/-- The parse pipeline of lines 561-565: extract a version token from
each downloaded line, version-sort, deduplicate.  The sort used is
whichever `_version_sort` the host provides, passed in as `vsort`. -/
def parseKnownList (vsort : List Str → List Str) (raw : List Str) : List Str :=
  uniqAdjacent (vsort (raw.filterMap goSrcExtract))

/-- Default `GIMME_KNOWN_CACHE_MAX` (line 792). -/
def knownCacheMaxDefault : Int := 10800

/-- `_update_remote_known_list_if_needed`.  `cache` is the snapshot file
`known-versions.txt` as `(mtime, lines)`; `dlfile` is what `_do_curl`
left in the download file (`none` = the fetch failed and left nothing —
the function is only ever run inside `$(...)`, where bash does not
inherit `set -e`, so a failed fetch falls through to the parse loop,
which then reads an empty/missing download).  Returns (whether a
network fetch was attempted, the resulting snapshot file, the catalog
content handed to the caller). -/
def update_remote_known_list (vsort : List Str → List Str) (dlfile : Option (List Str))
    (forceKnownUpdate : Bool) (now cacheMax : Int) (cache : Option (Int × List Str)) :
    Bool × Option (Int × List Str) × List Str :=
  match cache with
  | some (ts, content) =>
    if !forceKnownUpdate && !file_older_than_secs (some ts) now cacheMax then
      (false, some (ts, content), content)
    else
      let newList := parseKnownList vsort (dlfile.getD [])
      (true, some (now, newList), newList)
  | none =>
    let newList := parseKnownList vsort (dlfile.getD [])
    (true, some (now, newList), newList)

/-! ## Paths, configuration, `_try_existing` and the `GIMME_TYPE`
dispatch (gimme lines 414-450, 935-945) -/

/-- Split on a separator character (used for awk `-F` field splitting
and for the dotted-component analysis of version regexes). -/
def splitOnChar (sep : Char) : Str → List Str
  | [] => [[]]
  | c :: rest =>
    let r := splitOnChar sep rest
    if c == sep then [] :: r
    else
      match r with
      | h :: t => (c :: h) :: t
      | [] => [[c]]

/-- One dotted group of `ALLOWED_UPSTREAM_VERSION_RE` past the major
component: `\.[0-9][0-9a-zA-Z_-]{0,9}` (line 81). -/
def versionTailSegOk (seg : Str) : Bool :=
  match seg with
  | c :: rest =>
    c.isDigit && decide (rest.length ≤ 9) &&
      rest.all (fun ch => ch.isDigit || ch.isAlpha || ch == '_' || ch == '-')
  | [] => false

/-- bash test `[[ v =~ ${ALLOWED_UPSTREAM_VERSION_RE} ]]` with
`^[1-9][0-9]{0,3}(\.[0-9][0-9a-zA-Z_-]{0,9})+$` (line 81). -/
def allowed_upstream_version (v : Str) : Bool :=
  match splitOnChar '.' v with
  | mj :: rest =>
    !mj.isEmpty && decide (mj.length ≤ 4) && mj.all Char.isDigit &&
      mj.head? != some '0' && !rest.isEmpty && rest.all versionTailSegOk
  | [] => false

/-- The configuration relevant to installation (all defaulted
environment variables in the script). -/
structure GimmeCfg where
  goVersion : Str
  os : Str
  arch : Str
  versionsDir : Str
  envsDir : Str
  downloadBase : Str
  binaryOSX : Str

/-- `${GIMME_VERSION_PREFIX}/go$V.$OS.$ARCH` (line 417). -/
def binInstallDir (c : GimmeCfg) : Str :=
  c.versionsDir ++ str "/go" ++ c.goVersion ++ str "." ++ c.os ++ str "." ++ c.arch

/-- `${GIMME_ENV_PREFIX}/go$V.$OS.$ARCH.env` (line 418). -/
def binEnvFile (c : GimmeCfg) : Str :=
  c.envsDir ++ str "/go" ++ c.goVersion ++ str "." ++ c.os ++ str "." ++ c.arch ++ str ".env"

/-- `${GIMME_VERSION_PREFIX}/go$V.src` (line 421). -/
def srcInstallDir (c : GimmeCfg) : Str :=
  c.versionsDir ++ str "/go" ++ c.goVersion ++ str ".src"

/-- `${GIMME_ENV_PREFIX}/go$V.src.env` (line 422). -/
def srcEnvFile (c : GimmeCfg) : Str :=
  c.envsDir ++ str "/go" ++ c.goVersion ++ str ".src.env"

/-- `sed -e 's/\([^;]\)$/\1;/'` applied to one line (line 435): a
nonempty line not ending in a semicolon gains one. -/
def mungeSemi (l : Str) : Str :=
  match l.getLast? with
  | some c => if c == ';' then l else l ++ [';']
  | none => l

/-- `grep '^unset GOROOT'` on one line (line 440). -/
def isUnsetGorootLine (l : Str) : Bool := l.take 12 == str "unset GOROOT"

/-- Index of the last occurrence of `pat` as a contiguous sublist. -/
def lastSubIdx (pat l : Str) : Option Nat :=
  (List.range (l.length + 1)).reverse.find? fun k => (l.drop k).take pat.length == pat

/-- `sed -n -e 's/^export PATH="\(.*\)\/bin:.*$/export GOROOT='...'';/p'`
on one line (line 441): greedy capture up to the last `/bin:`. -/
def gorootFromPathLine (l : Str) : Option Str :=
  if l.take 13 == str "export PATH=\"" then
    match lastSubIdx (str "/bin:") (l.drop 13) with
    | some k =>
      some (str "export GOROOT=" ++ [squote] ++ (l.drop 13).take k ++ [squote, ';'])
    | none => none
  else none

/-- The stdout of a successful `_try_existing` arm (lines 430-447):
the env file with semicolons supplied, a GOROOT reconstruction when the
env file unsets GOROOT, and the `export GIMME_ENV=...` marker. -/
def try_existing_output (envLines : List Str) (envPath : Str) : List Str :=
  envLines.map mungeSemi ++
    (if envLines.any isUnsetGorootLine then
        envLines.filterMap gorootFromPathLine ++ [[]]
      else []) ++
    [str "export GIMME_ENV=" ++ [squote] ++ envPath ++ [squote, ';']]

/-- The filesystem state `_try_existing` inspects: whether
`<dir>/bin/go` is executable and the env file's lines (`[]` models a
missing or empty file, on which `-s` fails). -/
structure ExistingInstalls where
  binGoRunnable : Bool
  binEnvLines : List Str
  srcGoRunnable : Bool
  srcEnvLines : List Str

/-- `_try_existing binary`. -/
def try_existing_binary (fs : ExistingInstalls) (c : GimmeCfg) : Option (List Str) :=
  if fs.binGoRunnable && !fs.binEnvLines.isEmpty then
    some (try_existing_output fs.binEnvLines (binEnvFile c))
  else none

/-- `_try_existing source`. -/
def try_existing_src (fs : ExistingInstalls) (c : GimmeCfg) : Option (List Str) :=
  if fs.srcGoRunnable && !fs.srcEnvLines.isEmpty then
    some (try_existing_output fs.srcEnvLines (srcEnvFile c))
  else none

/-- `_try_existing` with no argument: binary then source (line 425). -/
def try_existing_auto (fs : ExistingInstalls) (c : GimmeCfg) : Option (List Str) :=
  (try_existing_binary fs c).orElse fun _ => try_existing_src fs c

/-- Oracles for the local (non-network) steps of an install: tar/unzip
extraction, `./make.bash` compilation, and `_env` (which only runs the
installed go binary). -/
structure InstallWorld where
  curl : CurlWorld
  extractOk : Str → Bool
  compileOk : Str → Bool
  envLines : Str → Option (List Str)

/-- The download URL candidates of `_binary` (lines 162-189). -/
def binary_urls (c : GimmeCfg) (version arch : Str) : List Str :=
  let basic := [c.downloadBase ++ str "/go" ++ version ++ str "." ++ c.os ++ str "-"
                  ++ arch ++ str ".tar.gz"]
  let withOsx :=
    if c.os == str "darwin" && !c.binaryOSX.isEmpty then
      (c.downloadBase ++ str "/go" ++ version ++ str "." ++ c.os ++ str "-" ++ arch
          ++ str "-" ++ c.binaryOSX ++ str ".tar.gz") :: basic
    else basic
  let withArm :=
    if arch == str "arm" then
      (c.downloadBase ++ str "/go" ++ version ++ str "." ++ c.os ++ str "-" ++ arch
          ++ str "v6l.tar.gz") ::
      (c.downloadBase ++ str "/go" ++ version ++ str "." ++ c.os ++ str "-" ++ arch
          ++ str "6.tar.gz") :: withOsx
    else withOsx
  if c.os == str "windows" then
    [c.downloadBase ++ str "/go" ++ version ++ str "." ++ c.os ++ str "-" ++ arch
        ++ str ".zip"]
  else withArm

/-- The download URL candidates of `_source` (lines 192-198). -/
def source_urls (c : GimmeCfg) (version : Str) : List Str :=
  [c.downloadBase ++ str "/go" ++ version ++ str ".src.tar.gz",
   str "https://github.com/golang/go/archive/go" ++ version ++ str ".tar.gz"]

/-- `_try_binary` (lines 453-470): version-shape gate, download with
fallback URLs, extract, emit env.  Returns the emitted output (none =
the arm failed) and the URLs fetched.  The `_env_alias` copy is
abstracted: the marker line names the canonical env file. -/
def try_binary_install (w : InstallWorld) (c : GimmeCfg) (dl : DlFiles) :
    Option (List Str) × List Str :=
  if !allowed_upstream_version c.goVersion then (none, [])
  else
    let r := do_curls w.curl dl (binary_urls c c.goVersion c.arch)
    if r.2.2 then
      if w.extractOk (binInstallDir c) then
        match w.envLines (binInstallDir c) with
        | some ls =>
          (some (ls ++ [str "export GIMME_ENV=\"" ++ binEnvFile c ++ str "\""]), r.1)
        | none => (none, r.1)
      else (none, r.1)
    else (none, r.1)

/-- `_try_source` (lines 472-485): like `_try_binary` but with a
compile step. -/
def try_source_install (w : InstallWorld) (c : GimmeCfg) (dl : DlFiles) :
    Option (List Str) × List Str :=
  if !allowed_upstream_version c.goVersion then (none, [])
  else
    let r := do_curls w.curl dl (source_urls c c.goVersion)
    if r.2.2 then
      if w.extractOk (srcInstallDir c) then
        if w.compileOk (srcInstallDir c) then
          match w.envLines (srcInstallDir c) with
          | some ls =>
            (some (ls ++ [str "export GIMME_ENV=\"" ++ srcEnvFile c ++ str "\""]), r.1)
          | none => (none, r.1)
        else (none, r.1)
      else (none, r.1)
    else (none, r.1)

/-- `_try_git` (lines 496-508): checkout the requested spec in the
shared clone, compile, emit env.  No network: the git fetch happened
earlier, in `_assert_version_given`. -/
def try_git_install (w : InstallWorld) (r : GitRepo) (c : GimmeCfg) : Option (List Str) :=
  if (checkout r c.goVersion).2.isSome then
    if w.compileOk (c.versionsDir ++ str "/go") then
      match w.envLines (c.versionsDir ++ str "/go") with
      | some ls =>
        some (ls ++ [str "export GIMME_ENV=\"" ++ c.envsDir ++ str "/go.git."
                ++ c.os ++ str "." ++ c.arch ++ str ".env\""])
      | none => none
    else none
  else none

/-- The `GIMME_TYPE=auto` dispatch (line 939):
`_try_existing || _try_binary || _try_source || _try_git`.
Returns the emitted env output and the list of URLs fetched from the
network. -/
def install_auto (w : InstallWorld) (r : GitRepo) (c : GimmeCfg)
    (fs : ExistingInstalls) (dl : DlFiles) : Option (List Str) × List Str :=
  match try_existing_auto fs c with
  | some out => (some out, [])
  | none =>
    let b := try_binary_install w c dl
    match b.1 with
    | some out => (some out, b.2)
    | none =>
      let s := try_source_install w c dl
      match s.1 with
      | some out => (some out, b.2 ++ s.2)
      | none => (try_git_install w r c, b.2 ++ s.2)

/-! ## `_env` and `_wipe_version` (gimme lines 359-394, 510-517) -/

/-- The lines `_env dir` emits (lines 374-393) for a binary working at
`dir`: a blank line, GOOS and GOARCH settings (unset when the binary's
host values match the configured targets), a single-quoted GOROOT
export, a PATH export, optionally a `go version` banner, and a final
blank line. -/
def env_file_lines (d os arch : Str) (osMatch archMatch silent : Bool) : List Str :=
  [[],
   (if osMatch then str "unset GOOS;"
    else str "export GOOS=\"" ++ os ++ str "\";"),
   (if archMatch then str "unset GOARCH;"
    else str "export GOARCH=\"" ++ arch ++ str "\";"),
   str "export GOROOT=" ++ [squote] ++ d ++ [squote, ';'],
   str "export PATH=\"" ++ d ++ str "/bin:${PATH}\";"] ++
  (if silent then [] else [str "go version >&2;"]) ++
  [[]]

/-- Substring test (regex `/GOROOT/` of the awk program). -/
def hasSub (pat l : Str) : Bool :=
  (List.range (l.length + 1)).any fun k => (l.drop k).take pat.length == pat

/-- awk `-F\"` field `$2` of one line: the text between the first and
second double quote; empty when the line has fewer than two fields. -/
def awkField2DQ (l : Str) : Str :=
  match splitOnChar '"' l with
  | _ :: f2 :: _ => f2
  | _ => []

/-- Join printed lines with newlines (what `$(...)` sees). -/
def joinNL : List Str → Str
  | [] => []
  | [a] => a
  | a :: rest => a ++ '\n' :: joinNL rest

/-- Command substitution strips trailing newlines. -/
def stripTrailingNL (s : Str) : Str := (s.reverse.dropWhile (· == '\n')).reverse

/-- The argument `_wipe_version` hands to `rm -rf` (line 514):
`$(awk -F\" '/GOROOT/ { print $2 }' env_file)`. -/
def wipe_rm_target (envLines : List Str) : Str :=
  stripTrailingNL (joinNL ((envLines.filter (hasSub (str "GOROOT"))).map awkField2DQ))

/-- One installation record: its install directory (and whether that
directory currently exists) and its env descriptor file
(`none` = absent, `some []` = empty). -/
structure VersionRecord where
  installDir : Str
  dirPresent : Bool
  envLines : Option (List Str)
deriving DecidableEq

/-- `_wipe_version` (lines 510-517): only if the env file is nonempty,
`rm -rf` whatever the awk extraction produced, then delete the env
file.  The install directory is removed only when the extracted text
names it. -/
def wipe_version (st : VersionRecord) : VersionRecord :=
  match st.envLines with
  | some ls =>
    if !ls.isEmpty then
      ⟨st.installDir,
       (if wipe_rm_target ls == st.installDir then false else st.dirPresent),
       none⟩
    else st
  | none => st

/-! ## `stable` / `oldstable` caches (gimme lines 645-682) -/

/-- `sed -i -e 's/^go\(.*\)/\1/'` on the fetched VERSION text
(line 670): strip a leading `go`. -/
def strip_go (s : Str) : Str :=
  match s with
  | 'g' :: 'o' :: rest => rest
  | _ => s

/-- awk numeric value of a field (leading digits; 0 otherwise). -/
def awkNumField (s : Str) : Int := Int.ofNat (digitsVal (s.takeWhile Char.isDigit))

/-- `awk -F. '{ $2--; print $1 "." $2 "." "x" }'` (lines 677-680):
decrement the minor component and append `.x`. -/
def oldstable_wildcard (stable : Str) : Str :=
  let fs := splitOnChar '.' stable
  (fs.headD []) ++ '.' :: (toString (awkNumField ((fs.drop 1).headD []) - 1)).data
    ++ str ".x"

/-- The two single-value cache files, as `(mtime, content)`. -/
structure StableCaches where
  stableFile : Option (Int × Str)
  oldstableFile : Option (Int × Str)

/-- `_get_curr_stable` (lines 645-653): refresh the `stable` file from
the VERSION endpoint when it is missing or older than 86400 seconds,
then print it.  `fetched` is what `_do_curl` would retrieve (`none` =
fetch failure, which leaves the previous file in place). -/
def get_curr_stable (now : Int) (fetched : Option Str) (st : StableCaches) : Str :=
  if file_older_than_secs (st.stableFile.map Prod.fst) now 86400 then
    match fetched, st.stableFile with
    | some s, _ => strip_go s
    | none, some (_, old) => old
    | none, none => []
  else (st.stableFile.map Prod.snd).getD []

/-- `_get_old_stable` (lines 655-663) with `_update_oldstable`
(lines 674-682): when the `oldstable` file is missing or older than
86400 seconds, recompute it by decrementing the minor component of the
current stable version and resolving the resulting `.x` wildcard
against the catalog; otherwise print the cached file. -/
def get_old_stable (now : Int) (env : ResolveEnv) (fetchedStable : Option Str)
    (st : StableCaches) : Str :=
  if file_older_than_secs (st.oldstableFile.map Prod.fst) now 86400 then
    (resolve_version env (oldstable_wildcard (get_curr_stable now fetchedStable st))).1
  else (st.oldstableFile.map Prod.snd).getD []

/-! ## Claim-side auxiliary definitions -/

/-- Zero-pad a digit component to width 3 (what the fallback padding is
meant to achieve on a final component). -/
def pad3zeros (b : Str) : Str := List.replicate (3 - b.length) '0' ++ b

/-- A canonical version component: nonempty, at most three digits, no
leading zero. -/
def canonCompB (l : Str) : Bool :=
  !l.isEmpty && decide (l.length ≤ 3) && l.all Char.isDigit && l.head? != some '0'

/-! ## Concrete fixtures used by witnesses and counterexamples -/

/-- A network where candidate `u1` serves an artifact whose digest file
is wrong, and candidate `u2` serves an artifact with no digest file. -/
def sampleCurlWorld : CurlWorld :=
  ⟨fun u =>
    if u == str "u1" then some (str "AAA")
    else if u == str "u1.sha256" then some (str "BAD")
    else if u == str "u2" then some (str "BBB")
    else none,
   fun c => str "H-" ++ c⟩

/-- A world with no reachable network and failing local steps (used
where those oracles are irrelevant). -/
def deadInstallWorld : InstallWorld :=
  ⟨⟨fun _ => none, fun c => str "H-" ++ c⟩, fun _ => false, fun _ => false, fun _ => none⟩

/-- A git repository where nothing resolves. -/
def deadGitRepo : GitRepo := ⟨fun _ => false, fun _ => none, fun _ => none⟩

/-- A sample configuration requesting go 1.21.0 for linux/amd64. -/
def sampleCfg : GimmeCfg :=
  ⟨str "1.21.0", str "linux", str "amd64", str "/r/versions", str "/r/envs",
   str "https://dl.google.com/go", []⟩

/-! # Helper lemmas -/

theorem foldl_keep_last {α : Type} (p : α → Bool) :
    ∀ (l : List α) (acc : Option α),
      l.foldl (fun a v => if p v then some v else a) acc =
        match (l.filter p).getLast? with
        | some v => some v
        | none => acc
  | [], _ => rfl
  | x :: l, acc => by
    rw [List.foldl_cons, foldl_keep_last p l]
    by_cases h : p x
    · rw [if_pos h, List.filter_cons_of_pos h]
      cases hfl : l.filter p with
      | nil => rfl
      | cons y ys =>
        rw [List.getLast?_cons_cons]
        cases hgl : (y :: ys).getLast? with
        | some v => rfl
        | none => simp at hgl
    · rw [if_neg (by simpa using h), List.filter_cons_of_neg (by simpa using h)]

theorem lastWildcardMatch_eq_getLast (base : Str) (cat : List Str) :
    lastWildcardMatch base cat = (cat.filter (fun v => wildcardMatch base v)).getLast? := by
  rw [lastWildcardMatch, foldl_keep_last]
  cases (cat.filter (fun v => wildcardMatch base v)).getLast? <;> rfl

/-! # Claim theorems -/

/-- C1: for every wildcard specifier of the form `base.x` whose base
matches `^[0-9.]+$`, `_resolve_version` scans the catalog top to bottom
and returns the last entry equal to `base` or extending it with further
dotted digits (status 0); when no catalog entry matches it echoes the
specifier back and fails with status 2.  Since the stored catalog is
version-sorted ascending, the last match is the highest version. -/
theorem c1_wildcard_resolution (env : ResolveEnv) (spec : Str)
    (hx : endsWithDotX spec = true)
    (hbase : baseValidForX (stripDotX spec) = true) :
    resolve_version env spec =
      match (env.catalog.filter (fun v => wildcardMatch (stripDotX spec) v)).getLast? with
      | some v => (v, 0)
      | none => (spec, 2) := by
  have hs : spec ≠ str "stable" := by
    intro h; rw [h] at hx; exact absurd hx (by decide)
  have ho : spec ≠ str "oldstable" := by
    intro h; rw [h] at hx; exact absurd hx (by decide)
  have ht : spec ≠ str "tip" := by
    intro h; rw [h] at hx; exact absurd hx (by decide)
  rw [resolve_version, if_neg (by simpa using hs), if_neg (by simpa using ho),
    if_neg (by simpa using ht), if_pos hx, if_neg (by simp [hbase]),
    lastWildcardMatch_eq_getLast]

/-- C1 witness: with the catalog `{1.9.1, 1.9.2, 1.9.10}` stored
version-sorted, `1.9.x` resolves to `1.9.10` (numeric, not lexical,
order) with status 0. -/
theorem c1_wildcard_resolution_witness :
    resolve_version
        ⟨native_version_sort [str "1.9.1", str "1.9.2", str "1.9.10"],
          [], [], false, fun _ => false⟩ (str "1.9.x") = (str "1.9.10", 0) := by
  have h := c1_wildcard_resolution
    ⟨native_version_sort [str "1.9.1", str "1.9.2", str "1.9.10"],
      [], [], false, fun _ => false⟩ (str "1.9.x") (by decide) (by decide)
  rw [h]; decide

theorem probe_specs_spec (r : GitRepo) : ∀ l : List Str,
    probe_specs r l =
      match l.find? r.resetOk with
      | some c =>
        ((l.takeWhile (fun v => !r.resetOk v)).map GitOp.probe ++ [GitOp.probe c], true)
      | none => (l.map GitOp.probe, false)
  | [] => rfl
  | c :: cs => by
    unfold probe_specs
    by_cases h : r.resetOk c
    · rw [if_pos h, List.find?_cons_of_pos _ h,
        List.takeWhile_cons_of_neg (by simpa using h)]
      rfl
    · rw [if_neg (by simpa using h), List.find?_cons_of_neg _ h, probe_specs_spec r cs,
        List.takeWhile_cons_of_pos (by simpa using h)]
      cases cs.find? r.resetOk <;> rfl

/-- C2: `_checkout` classifies its ref in this exact order: (1) a
lowercase-hex ref of length at least 6 is hard-reset to directly — one
reset, no probing; (2) otherwise a ref containing any of `@ ^ ~ : \x7b \x7d`
skips symbolic probing and goes to the relative-revision path, except
the literal `@`, which is first normalized to `HEAD`; (3) otherwise the
candidates `origin/<ref>`, `origin/go<ref>`, `origin/master` (for
"tip" only), `refs/tags/<ref>`, `refs/tags/go<ref>` are probed in order
and the first that resets wins; (4) only when probing is skipped or
fails does the resolver reset to the primary branch and parse the ref
as a relative revision expression. -/
theorem c2_checkout_classification (r : GitRepo) (s : Str) :
    (isCommitHex s = true →
      checkout r s = ([GitOp.reset s], if r.resetOk s then some [] else none)) ∧
    (isCommitHex s = false → hasGitModChar s = true → s ≠ str "@" →
      checkout r s = checkout_rel r s) ∧
    (isCommitHex s = false → s = str "@" →
      checkout r s = checkout_rel r (str "HEAD")) ∧
    (isCommitHex s = false → hasGitModChar s = false →
      match (probe_candidates s).find? r.resetOk with
      | some c =>
        checkout r s =
          (((probe_candidates s).takeWhile (fun v => !r.resetOk v)).map GitOp.probe
              ++ [GitOp.probe c], some [])
      | none =>
        checkout r s =
          ((probe_candidates s).map GitOp.probe ++ (checkout_rel r s).1,
            (checkout_rel r s).2)) := by
  refine ⟨fun h1 => ?_, fun h1 h2 h3 => ?_, fun h1 h2 => ?_, fun h1 h2 => ?_⟩
  · rw [checkout, if_pos h1]
  · rw [checkout, if_neg (by simp [h1]), if_pos h2, if_neg (by simpa using h3)]
  · subst h2
    rw [checkout, if_neg (by simpa using h1), if_pos (by decide), if_pos (by decide)]
  · rw [checkout, if_neg (by simp [h1]), if_neg (by simp [h2]),
      probe_specs_spec r (probe_candidates s)]
    cases hf : (probe_candidates s).find? r.resetOk with
    | some c => rw [if_pos rfl]
    | none => rw [if_neg (by simp)]

/-- C2 witness: a 12-character lowercase-hex ref is classified as a
commit sha and handled with exactly one hard reset, no probing. -/
theorem c2_checkout_classification_witness :
    checkout ⟨fun v => v == str "a1b2c3d4e5f6", fun _ => none, fun _ => none⟩
        (str "a1b2c3d4e5f6") =
      ([GitOp.reset (str "a1b2c3d4e5f6")], some []) := by
  have h := (c2_checkout_classification
    ⟨fun v => v == str "a1b2c3d4e5f6", fun _ => none, fun _ => none⟩
    (str "a1b2c3d4e5f6")).1 (by decide)
  rw [h]; decide

theorem checkout_rel_output (r : GitRepo) (sp out : Str)
    (h : (checkout_rel r sp).2 = some out) : ∃ rev, r.shortRev rev = some out := by
  unfold checkout_rel at h
  split at h
  · split at h
    · split at h
      · exact ⟨_, h⟩
      · simp at h
    · simp at h
  · simp at h

/-- C9 (amended): a successful `_checkout` prints the resolved short
sha only when the relative-revision path produced the success (where
the printed text is the output of `git rev-parse --short=12`); on the
direct-commit-hash and symbolic-probe paths the success output is
empty. -/
theorem c9_checkout_success_output (r : GitRepo) (s out : Str)
    (h : (checkout r s).2 = some out) :
    out = [] ∨ ∃ rev, r.shortRev rev = some out := by
  simp only [checkout] at h
  split at h
  · split at h
    · exact Or.inl (Option.some.inj h).symm
    · simp at h
  · split at h
    · split at h <;> exact Or.inr (checkout_rel_output r _ out h)
    · split at h
      · exact Or.inl (Option.some.inj h).symm
      · exact Or.inr (checkout_rel_output r s out h)

/-- C9 counterexample: a checkout that succeeds through the symbolic
probe `origin/release1` prints nothing — the claim that every
successful checkout reports a hex string of at least 6 characters is
false. -/
theorem c9_counterexample :
    (checkout ⟨fun v => v == str "origin/release1", fun _ => none, fun _ => none⟩
        (str "release1")).2 = some [] ∧ ([] : Str).length < 6 := by decide

/-- C9 witness: a relative-revision success prints the short sha that
`rev-parse --short=12` produced. -/
theorem c9_checkout_success_output_witness :
    (checkout
        ⟨fun v => v == str "origin/master" || v == str "deadbeefcafe1234",
          fun sp => if sp == str "v1" then some (str "deadbeefcafe1234") else none,
          fun rev => if rev == str "deadbeefcafe1234" then some (str "deadbeefcafe") else none⟩
        (str "v1")).2 = some (str "deadbeefcafe") ∧
      (str "deadbeefcafe" = ([] : Str) ∨
        ∃ rev, (⟨fun v => v == str "origin/master" || v == str "deadbeefcafe1234",
          fun sp => if sp == str "v1" then some (str "deadbeefcafe1234") else none,
          fun rev => if rev == str "deadbeefcafe1234" then some (str "deadbeefcafe") else none⟩ :
            GitRepo).shortRev rev = some (str "deadbeefcafe")) :=
  ⟨by decide, c9_checkout_success_output _ (str "v1") (str "deadbeefcafe") (by decide)⟩

/-- C3 (code bug): a failed catalog fetch does NOT leave the previous
snapshot intact.  `_update_remote_known_list_if_needed` only ever runs
inside `$(...)`, where bash does not inherit `set -e`; a failed
`_do_curl` therefore falls through, the parse loop reads the missing
download file, produces an empty list, and the `rm`/`mv` pair replaces
the previous snapshot with that empty list (returning success).  At the
failing input — a stale snapshot holding two versions and a fetch that
fails — the snapshot is clobbered to the empty catalog. -/
theorem c3_failed_fetch_clobbers_snapshot :
    update_remote_known_list (fun l => l) none false 100000 10800
        (some (0, [str "1.21.0", str "1.21.5"])) =
      (true, some (100000, []), []) ∧
    ([str "1.21.0", str "1.21.5"] : List Str) ≠ [] := by decide

/-- C4: when the snapshot file exists, its age is at most the TTL
(default 10800 seconds) and the force flag is unset, the catalog
refresh performs no network fetch and returns the snapshot unchanged;
hence two refreshes inside the TTL window return byte-identical
content, whatever either fetch would have returned. -/
theorem c4_ttl_cache_hit (vsort : List Str → List Str)
    (dl dl' : Option (List Str)) (now now' cacheMax ts : Int) (content : List Str)
    (h : now - ts ≤ cacheMax) (h' : now' - ts ≤ cacheMax) :
    update_remote_known_list vsort dl false now cacheMax (some (ts, content)) =
      (false, some (ts, content), content) ∧
    (update_remote_known_list vsort dl' false now' cacheMax (some (ts, content))).2.2 =
      (update_remote_known_list vsort dl false now cacheMax (some (ts, content))).2.2 := by
  have hc1 : (!false && !file_older_than_secs (some ts) now cacheMax) = true := by
    simp [file_older_than_secs]; omega
  have hc2 : (!false && !file_older_than_secs (some ts) now' cacheMax) = true := by
    simp [file_older_than_secs]; omega
  have e1 : update_remote_known_list vsort dl false now cacheMax (some (ts, content)) =
      (false, some (ts, content), content) := by
    simp only [update_remote_known_list]
    rw [if_pos hc1]
  have e2 : update_remote_known_list vsort dl' false now' cacheMax (some (ts, content)) =
      (false, some (ts, content), content) := by
    simp only [update_remote_known_list]
    rw [if_pos hc2]
  exact ⟨e1, by rw [e1, e2]⟩

/-- C4 witness: a snapshot written at time 0 and refreshed at times
5000 and 9000 with the default TTL of 10800 seconds is returned
unchanged both times, with no fetch. -/
theorem c4_ttl_cache_hit_witness :
    update_remote_known_list (fun l => l) (some [str "go1.22.0.src.tar.gz"]) false
        5000 knownCacheMaxDefault (some (0, [str "1.21.5"])) =
      (false, some (0, [str "1.21.5"]), [str "1.21.5"]) ∧
    (update_remote_known_list (fun l => l) none false 9000 knownCacheMaxDefault
        (some (0, [str "1.21.5"]))).2.2 =
      (update_remote_known_list (fun l => l) (some [str "go1.22.0.src.tar.gz"]) false
        5000 knownCacheMaxDefault (some (0, [str "1.21.5"]))).2.2 :=
  c4_ttl_cache_hit (fun l => l) (some [str "go1.22.0.src.tar.gz"]) none
    5000 9000 knownCacheMaxDefault 0 [str "1.21.5"] (by decide) (by decide)

theorem do_curls_loop_spec (w : CurlWorld) : ∀ (urls : List Str) (st : DlFiles),
    ((do_curls_loop w st urls).2.2 = true ↔ urls.any (candidateGood w) = true) ∧
    (match urls.find? (candidateGood w) with
     | some u =>
         (do_curls_loop w st urls).2.1.file = w.fetch u ∧
         (do_curls_loop w st urls).1 =
           ((urls.takeWhile (fun v => !candidateGood w v)).map (candidateAttempts w)).flatten
             ++ candidateAttempts w u
     | none =>
         (do_curls_loop w st urls).2.1.file = none ∧
         (do_curls_loop w st urls).1 = (urls.map (candidateAttempts w)).flatten)
  | [], st => by
    refine ⟨by simp [do_curls_loop], by simp [do_curls_loop]⟩
  | u :: us, st => by
    cases hfu : w.fetch u with
    | none =>
      have hg : candidateGood w u = false := by simp [candidateGood, hfu]
      have ha : candidateAttempts w u = [u] := by simp [candidateAttempts, hfu]
      have hstep : do_curls_loop w st (u :: us) =
          (u :: (do_curls_loop w st us).1, (do_curls_loop w st us).2) := by
        simp only [do_curls_loop, hfu]
      have ih := do_curls_loop_spec w us st
      refine ⟨?_, ?_⟩
      · rw [hstep]; simp only [List.any_cons, hg, Bool.false_or]; exact ih.1
      · rw [List.find?_cons_of_neg _ (by simp [hg])]
        have ih2 := ih.2
        cases hf : us.find? (candidateGood w) with
        | some v =>
          rw [hf] at ih2
          refine ⟨by rw [hstep]; exact ih2.1, ?_⟩
          rw [hstep, List.takeWhile_cons_of_pos (by simp [hg])]
          simp only [List.map_cons, List.flatten, ha]
          rw [ih2.2]
          simp
        | none =>
          rw [hf] at ih2
          refine ⟨by rw [hstep]; exact ih2.1, ?_⟩
          rw [hstep]
          simp only [List.map_cons, List.flatten, ha]
          rw [ih2.2]
          simp
    | some c =>
      cases hfs : w.fetch (u ++ str ".sha256") with
      | none =>
        have hg : candidateGood w u = true := by simp [candidateGood, hfu, hfs]
        have ha : candidateAttempts w u = [u, u ++ str ".sha256"] := by
          simp [candidateAttempts, hfu]
        have hstep : do_curls_loop w st (u :: us) =
            ([u, u ++ str ".sha256"], ⟨some c, st.digest⟩, true) := by
          simp only [do_curls_loop, hfu, hfs]
        refine ⟨by rw [hstep]; simp [hg], ?_⟩
        rw [List.find?_cons_of_pos _ hg]
        refine ⟨by rw [hstep, hfu], ?_⟩
        rw [hstep, List.takeWhile_cons_of_neg (by simp [hg])]
        simp [ha]
      | some d =>
        by_cases hd : (d == w.sha c) = true
        · have hg : candidateGood w u = true := by simp [candidateGood, hfu, hfs, hd]
          have ha : candidateAttempts w u = [u, u ++ str ".sha256"] := by
            simp [candidateAttempts, hfu]
          have hstep : do_curls_loop w st (u :: us) =
              ([u, u ++ str ".sha256"], ⟨some c, some d⟩, true) := by
            simp only [do_curls_loop, hfu, hfs, hd, if_true]
          refine ⟨by rw [hstep]; simp [hg], ?_⟩
          rw [List.find?_cons_of_pos _ hg]
          refine ⟨by rw [hstep, hfu], ?_⟩
          rw [hstep, List.takeWhile_cons_of_neg (by simp [hg])]
          simp [ha]
        · have hg : candidateGood w u = false := by
            simp only [candidateGood, hfu, hfs]
            simpa using hd
          have ha : candidateAttempts w u = [u, u ++ str ".sha256"] := by
            simp [candidateAttempts, hfu]
          have hstep : do_curls_loop w st (u :: us) =
              (u :: (u ++ str ".sha256") :: (do_curls_loop w ⟨some c, some d⟩ us).1,
                (do_curls_loop w ⟨some c, some d⟩ us).2) := by
            simp only [do_curls_loop, hfu, hfs]
            rw [if_neg (by simpa using hd)]
          have ih := do_curls_loop_spec w us ⟨some c, some d⟩
          refine ⟨?_, ?_⟩
          · rw [hstep]; simp only [List.any_cons, hg, Bool.false_or]; exact ih.1
          · rw [List.find?_cons_of_neg _ (by simp [hg])]
            have ih2 := ih.2
            cases hf : us.find? (candidateGood w) with
            | some v =>
              rw [hf] at ih2
              refine ⟨by rw [hstep]; exact ih2.1, ?_⟩
              rw [hstep, List.takeWhile_cons_of_pos (by simp [hg])]
              simp only [List.map_cons, List.flatten, ha]
              rw [ih2.2]
              simp
            | none =>
              rw [hf] at ih2
              refine ⟨by rw [hstep]; exact ih2.1, ?_⟩
              rw [hstep]
              simp only [List.map_cons, List.flatten, ha]
              rw [ih2.2]
              simp

/-- C5: given an ordered candidate list (and no already-verified
artifact on disk), `_do_curls` tries candidates in order.  A candidate
is good when its artifact downloads and either no digest file is
reachable (accepted unverified) or the fetched digest verifies.  The
fetch succeeds iff some candidate is good; the artifact kept is the
first good candidate's, the fetch trace stops at that candidate (later
candidates are never contacted); a digest mismatch merely moves on to
the next candidate; and exhausting all candidates removes the partial
artifact and fails. -/
theorem c5_verified_fetch (w : CurlWorld) (urls : List Str) (st : DlFiles)
    (hpre : shaCheckOk w st = false) :
    ((do_curls w st urls).2.2 = true ↔ urls.any (candidateGood w) = true) ∧
    (match urls.find? (candidateGood w) with
     | some u =>
         (do_curls w st urls).2.1.file = w.fetch u ∧
         (do_curls w st urls).1 =
           ((urls.takeWhile (fun v => !candidateGood w v)).map (candidateAttempts w)).flatten
             ++ candidateAttempts w u
     | none =>
         (do_curls w st urls).2.1.file = none ∧
         (do_curls w st urls).1 = (urls.map (candidateAttempts w)).flatten) := by
  have he : do_curls w st urls = do_curls_loop w st urls := by
    rw [do_curls, if_neg (by simp [hpre])]
  simp only [he]
  exact do_curls_loop_spec w urls st

/-- C5 witness: candidate `u1` downloads but its digest mismatches;
candidate `u2` downloads with no digest file.  The fetch succeeds with
`u2`'s artifact, having contacted `u1`, `u1.sha256`, `u2`, `u2.sha256`
in that order. -/
theorem c5_verified_fetch_witness :
    ((do_curls sampleCurlWorld ⟨none, none⟩ [str "u1", str "u2"]).2.2 = true ↔
      ([str "u1", str "u2"].any (candidateGood sampleCurlWorld)) = true) ∧
    (do_curls sampleCurlWorld ⟨none, none⟩ [str "u1", str "u2"]).2.1.file =
      some (str "BBB") := by
  have h := c5_verified_fetch sampleCurlWorld [str "u1", str "u2"] ⟨none, none⟩ (by decide)
  refine ⟨h.1, ?_⟩
  have h2 := h.2
  rw [show [str "u1", str "u2"].find? (candidateGood sampleCurlWorld) =
      some (str "u2") from by decide] at h2
  exact h2.1.trans (by decide)

/-- C6 counterexample: with a valid existing binary install whose env
descriptor is the single line `unset GOOS` (no trailing semicolon), the
`auto` install performs zero network fetches but does NOT return the
descriptor content unchanged: the compatibility `sed` rewrites the line
to `unset GOOS;` (and an `export GIMME_ENV=...` marker is appended). -/
theorem c6_counterexample :
    install_auto deadInstallWorld deadGitRepo sampleCfg
        ⟨true, [str "unset GOOS"], false, []⟩ ⟨none, none⟩ =
      (some [str "unset GOOS;",
        str "export GIMME_ENV=" ++ [squote] ++ str "/r/envs/go1.21.0.linux.amd64.env"
          ++ [squote, ';']], []) ∧
    [str "unset GOOS;"] ≠ [str "unset GOOS"] := by decide

/-- C6 (amended): with install type `auto` and a valid existing binary
installation — go binary runnable, env descriptor nonempty — the
install performs zero network fetches and returns the descriptor
content with a semicolon appended to every line not already ending in
one; in particular, a descriptor whose lines are all
semicolon-terminated and which does not unset GOROOT is returned
unchanged, followed only by the `export GIMME_ENV=...` marker. -/
theorem c6_auto_existing_reuse (w : InstallWorld) (r : GitRepo) (c : GimmeCfg)
    (fs : ExistingInstalls) (dl : DlFiles)
    (hgo : fs.binGoRunnable = true) (henv : fs.binEnvLines ≠ []) :
    install_auto w r c fs dl =
      (some (try_existing_output fs.binEnvLines (binEnvFile c)), []) ∧
    ((∀ l ∈ fs.binEnvLines, l.getLast? = some ';') →
      (∀ l ∈ fs.binEnvLines, isUnsetGorootLine l = false) →
      install_auto w r c fs dl =
        (some (fs.binEnvLines ++
          [str "export GIMME_ENV=" ++ [squote] ++ binEnvFile c ++ [squote, ';']]),
          [])) := by
  have htb : try_existing_binary fs c =
      some (try_existing_output fs.binEnvLines (binEnvFile c)) := by
    rw [try_existing_binary, if_pos (by simp [hgo, henv])]
  have hta : try_existing_auto fs c =
      some (try_existing_output fs.binEnvLines (binEnvFile c)) := by
    rw [try_existing_auto, htb]
    rfl
  have e1 : install_auto w r c fs dl =
      (some (try_existing_output fs.binEnvLines (binEnvFile c)), []) := by
    simp only [install_auto]
    rw [hta]
  refine ⟨e1, fun hsemi hnog => ?_⟩
  rw [e1]
  have hmap : fs.binEnvLines.map mungeSemi = fs.binEnvLines := by
    rw [show fs.binEnvLines.map mungeSemi = fs.binEnvLines.map id from
      List.map_congr_left fun a ha => by simp [mungeSemi, hsemi a ha], List.map_id]
  have hany : fs.binEnvLines.any isUnsetGorootLine = false := by
    rw [List.any_eq_false]
    intro x hx
    simp [hnog x hx]
  rw [try_existing_output, hany, hmap]
  simp

/-- C6 witness: a well-formed one-line descriptor `unset GOOS;` is
returned byte-identical (plus the GIMME_ENV marker), with an empty
network trace. -/
theorem c6_auto_existing_reuse_witness :
    install_auto deadInstallWorld deadGitRepo sampleCfg
        ⟨true, [str "unset GOOS;"], false, []⟩ ⟨none, none⟩ =
      (some ([str "unset GOOS;"] ++
        [str "export GIMME_ENV=" ++ [squote] ++ binEnvFile sampleCfg ++ [squote, ';']]),
        []) :=
  (c6_auto_existing_reuse deadInstallWorld deadGitRepo sampleCfg
      ⟨true, [str "unset GOOS;"], false, []⟩ ⟨none, none⟩ (by decide) (by decide)).2
    (by decide) (by decide)

/-- C7 (code bug): force-reinstall does NOT remove the install
directory together with the descriptor.  `_wipe_version` extracts the
`rm -rf` target with `awk -F\" '/GOROOT/ \x7b print $2 \x7d'`, i.e. the text
between double quotes — but `_env` writes the GOROOT line with single
quotes (`export GOROOT='<dir>';`), so the extraction yields the empty
string and only the env file is deleted; the install directory
survives.  Evaluated here on the exact descriptor `_env` produces for
a host-matching linux/amd64 install. -/
theorem c7_wipe_leaves_install_dir :
    wipe_rm_target (env_file_lines (str "/r/versions/go1.21.0.linux.amd64")
        (str "linux") (str "amd64") true true false) = [] ∧
    wipe_version ⟨str "/r/versions/go1.21.0.linux.amd64", true,
        some (env_file_lines (str "/r/versions/go1.21.0.linux.amd64")
          (str "linux") (str "amd64") true true false)⟩ =
      ⟨str "/r/versions/go1.21.0.linux.amd64", true, none⟩ ∧
    (str "/r/versions/go1.21.0.linux.amd64") ≠ [] := by decide

/-- C8: resolving `oldstable` when its 24-hour cache file is stale
takes the current stable version (itself served from the `stable`
cache file with its own independent 24-hour TTL, refreshed from the
single-value VERSION endpoint with the leading `go` stripped),
decrements the minor component and appends `.x`, and resolves that
wildcard against the catalog; `1.22.3` yields the search pattern
`1.21.x`.  When the `oldstable` cache is fresh, the cached text is
returned and the catalog is not consulted at all. -/
theorem c8_oldstable_computation (now : Int) (env env' : ResolveEnv)
    (fetched : Option Str) (st : StableCaches) :
    (file_older_than_secs (st.oldstableFile.map Prod.fst) now 86400 = true →
      get_old_stable now env fetched st =
        (resolve_version env (oldstable_wildcard (get_curr_stable now fetched st))).1) ∧
    oldstable_wildcard (str "1.22.3") = str "1.21.x" ∧
    (file_older_than_secs (st.oldstableFile.map Prod.fst) now 86400 = false →
      get_old_stable now env fetched st = get_old_stable now env' fetched st) := by
  refine ⟨fun h => ?_, by decide, fun h => ?_⟩
  · rw [get_old_stable, if_pos h]
  · rw [get_old_stable, if_neg (by simp [h]), get_old_stable, if_neg (by simp [h])]

/-- C8 witness: with a stale `oldstable` cache, a fresh fetch of the
VERSION endpoint returning `go1.22.3`, and the catalog
`{1.21.0, 1.21.5, 1.22.0}`, resolving `oldstable` computes the search
pattern `1.21.x` and returns `1.21.5`, the highest published 1.21
release. -/
theorem c8_oldstable_computation_witness :
    get_old_stable 200000
        ⟨[str "1.21.0", str "1.21.5", str "1.22.0"], [], [], false, fun _ => false⟩
        (some (str "go1.22.3")) ⟨some (100, str "1.22.3"), none⟩ = str "1.21.5" := by
  have h := (c8_oldstable_computation 200000
    ⟨[str "1.21.0", str "1.21.5", str "1.22.0"], [], [], false, fun _ => false⟩
    ⟨[], [], [], false, fun _ => false⟩
    (some (str "go1.22.3")) ⟨some (100, str "1.22.3"), none⟩).1 (by decide)
  exact h.trans (by decide)

/-- C10 counterexample: on the claim's own example list
`{1.9.2, 1.9.10}` the two `_version_sort` implementations disagree.
The padding pass consumes the dot after `9`, so `1.9.2` becomes
`1.009.2` while `1.9.10` becomes `1.009.010`; both parse to the same
general-numeric key 1.009, and the bytewise tie-break puts `1.009.010`
first — the fallback emits `1.9.10` before `1.9.2`, the native sort the
reverse. -/
theorem c10_counterexample :
    fallback_version_sort [str "1.9.2", str "1.9.10"] = [str "1.9.10", str "1.9.2"] ∧
    native_version_sort [str "1.9.2", str "1.9.10"] = [str "1.9.2", str "1.9.10"] ∧
    fallback_version_sort [str "1.9.2", str "1.9.10"] ≠
      native_version_sort [str "1.9.2", str "1.9.10"] := by decide

theorem digitsVal_go (t : Str) : ∀ (n : Nat),
    t.foldl (fun n c => 10 * n + (c.toNat - 48)) n =
      n * 10 ^ t.length + digitsVal t := by
  induction t with
  | nil => intro n; simp [digitsVal]
  | cons c t ih =>
    intro n
    rw [List.foldl_cons, ih]
    have h2 : digitsVal (c :: t) = (10 * 0 + (c.toNat - 48)) * 10 ^ t.length + digitsVal t :=
      ih (10 * 0 + (c.toNat - 48))
    rw [h2, List.length_cons, pow_succ]
    ring

theorem digitsVal_cons (c : Char) (t : Str) :
    digitsVal (c :: t) = (c.toNat - 48) * 10 ^ t.length + digitsVal t := by
  rw [digitsVal, List.foldl_cons, digitsVal_go]
  simp

theorem digit_toNat_bounds (c : Char) (h : c.isDigit = true) :
    48 ≤ c.toNat ∧ c.toNat ≤ 57 := by
  simp only [Char.isDigit, decide_eq_true_eq, Bool.and_eq_true] at h
  exact ⟨h.1, h.2⟩

theorem char_eq_of_toNat_eq {a b : Char} (h : a.toNat = b.toNat) : a = b :=
  Char.eq_of_val_eq (UInt32.toNat.inj h)

theorem digitsVal_lt (l : Str) (h : ∀ c ∈ l, c.isDigit = true) :
    digitsVal l < 10 ^ l.length := by
  induction l with
  | nil => simp [digitsVal]
  | cons c t ih =>
    rw [digitsVal_cons]
    have hc := digit_toNat_bounds c (h c (by simp))
    have ht := ih (fun x hx => h x (by simp [hx]))
    have hd9 : c.toNat - 48 ≤ 9 := by omega
    have hmul : (c.toNat - 48) * 10 ^ t.length ≤ 9 * 10 ^ t.length :=
      Nat.mul_le_mul_right _ hd9
    have hpow : (10 : Nat) ^ (c :: t).length = 10 * 10 ^ t.length := by
      rw [List.length_cons, pow_succ]; ring
    omega

theorem digitsVal_head_ge (c : Char) (t : Str) (hc : c.isDigit = true)
    (h0 : c ≠ '0') : 10 ^ t.length ≤ digitsVal (c :: t) := by
  rw [digitsVal_cons]
  have hb := digit_toNat_bounds c hc
  have h48 : ('0' : Char).toNat = 48 := rfl
  have h1 : 1 ≤ c.toNat - 48 := by
    by_cases hq : c.toNat = 48
    · exact absurd (char_eq_of_toNat_eq (by omega)) h0
    · omega
  have := Nat.mul_le_mul_right (10 ^ t.length) h1
  omega

theorem digits_mul_add_lt (A B v w X : Nat) (hv : v < X) (hAB : A < B) :
    A * X + v < B * X + w := by
  calc A * X + v < A * X + X := by omega
    _ = (A + 1) * X := by ring
    _ ≤ B * X := Nat.mul_le_mul_right X hAB
    _ ≤ B * X + w := by omega

theorem digits_inj_of_length : ∀ (l1 l2 : Str), l1.length = l2.length →
    (∀ c ∈ l1, c.isDigit = true) → (∀ c ∈ l2, c.isDigit = true) →
    digitsVal l1 = digitsVal l2 → l1 = l2
  | [], [], _, _, _, _ => rfl
  | [], _ :: _, hlen, _, _, _ => by simp at hlen
  | _ :: _, [], hlen, _, _, _ => by simp at hlen
  | c :: t, d :: s, hlen, h1, h2, hv => by
    have hlen' : t.length = s.length := by simpa using hlen
    rw [digitsVal_cons, digitsVal_cons, hlen'] at hv
    have hvt : digitsVal t < 10 ^ s.length := by
      rw [← hlen']; exact digitsVal_lt t (fun x hx => h1 x (by simp [hx]))
    have hvs : digitsVal s < 10 ^ s.length := digitsVal_lt s (fun x hx => h2 x (by simp [hx]))
    have hbc := digit_toNat_bounds c (h1 c (by simp))
    have hbd := digit_toNat_bounds d (h2 d (by simp))
    have hAB : c.toNat - 48 = d.toNat - 48 := by
      by_contra hne
      rcases Nat.lt_or_ge (c.toNat - 48) (d.toNat - 48) with hlt | hge
      · have := digits_mul_add_lt (c.toNat - 48) (d.toNat - 48)
          (digitsVal t) (digitsVal s) (10 ^ s.length) hvt hlt
        omega
      · have hgt : d.toNat - 48 < c.toNat - 48 := by omega
        have := digits_mul_add_lt (d.toNat - 48) (c.toNat - 48)
          (digitsVal s) (digitsVal t) (10 ^ s.length) hvs hgt
        omega
    have hcd : c = d := char_eq_of_toNat_eq (by omega)
    have hts : t = s := by
      rw [hAB] at hv
      exact digits_inj_of_length t s hlen'
        (fun x hx => h1 x (by simp [hx])) (fun x hx => h2 x (by simp [hx])) (by omega)
    rw [hcd, hts]

theorem canonCompB_spec (l : Str) (h : canonCompB l = true) :
    l ≠ [] ∧ l.length ≤ 3 ∧ (∀ c ∈ l, c.isDigit = true) ∧ l.head? ≠ some '0' := by
  simp only [canonCompB, Bool.and_eq_true, decide_eq_true_eq, List.all_eq_true,
    bne_iff_ne, Bool.not_eq_true', List.isEmpty_eq_false] at h
  exact ⟨h.1.1.1, h.1.1.2, h.1.2, h.2⟩

theorem canon_digitsVal_inj (l1 l2 : Str) (h1 : canonCompB l1 = true)
    (h2 : canonCompB l2 = true) (hv : digitsVal l1 = digitsVal l2) : l1 = l2 := by
  obtain ⟨hne1, _, hd1, hh1⟩ := canonCompB_spec l1 h1
  obtain ⟨hne2, _, hd2, hh2⟩ := canonCompB_spec l2 h2
  rcases l1 with _ | ⟨c, t⟩
  · exact absurd rfl hne1
  rcases l2 with _ | ⟨d, s⟩
  · exact absurd rfl hne2
  have hc0 : c ≠ '0' := fun he => hh1 (by simp [he])
  have hd0 : d ≠ '0' := fun he => hh2 (by simp [he])
  have hlen : (c :: t).length = (d :: s).length := by
    by_contra hne
    rcases Nat.lt_or_ge (c :: t).length (d :: s).length with hlt | hge
    · have hub := digitsVal_lt (c :: t) hd1
      have hlb := digitsVal_head_ge d s (hd2 d (by simp)) hd0
      have hpow : (10 : ℕ) ^ (c :: t).length ≤ 10 ^ s.length :=
        Nat.pow_le_pow_right (by omega) (by simp only [List.length_cons] at hlt ⊢; omega)
      omega
    · have hgt : (d :: s).length < (c :: t).length := by omega
      have hub := digitsVal_lt (d :: s) hd2
      have hlb := digitsVal_head_ge c t (hd1 c (by simp)) hc0
      have hpow : (10 : ℕ) ^ (d :: s).length ≤ 10 ^ t.length :=
        Nat.pow_le_pow_right (by omega) (by simp only [List.length_cons] at hgt ⊢; omega)
      omega
  exact digits_inj_of_length _ _ hlen hd1 hd2 hv

theorem takeWhile_digits (b : Str) (hb : ∀ c ∈ b, c.isDigit = true) :
    b.takeWhile Char.isDigit = b := by
  induction b with
  | nil => rfl
  | cons c t ih =>
    rw [List.takeWhile_cons_of_pos (hb c (by simp)),
      ih (fun x hx => hb x (by simp [hx]))]

theorem takeWhile_digits_append (a : Str) (b' : Str) (ha : ∀ c ∈ a, c.isDigit = true) :
    (a ++ '.' :: b').takeWhile Char.isDigit = a := by
  induction a with
  | nil => rw [List.nil_append, List.takeWhile_cons_of_neg (by decide)]
  | cons c t ih =>
    rw [List.cons_append, List.takeWhile_cons_of_pos (ha c (by simp)),
      ih (fun x hx => ha x (by simp [hx]))]

theorem verTokens_digits : ∀ (b : Str), b ≠ [] → (∀ c ∈ b, c.isDigit = true) →
    verTokens b = [.inl (digitsVal b, b.length)]
  | [], h, _ => absurd rfl h
  | [c], _, hb => by
    simp only [verTokens, if_pos (hb c (by simp))]
    simp [digitsVal_cons, digitsVal]
  | c :: c2 :: t, _, hb => by
    have ih := verTokens_digits (c2 :: t) (by simp) (fun x hx => hb x (by simp [hx]))
    simp only [verTokens] at ih ⊢
    rw [ih, if_pos (hb c (by simp))]
    simp [digitsVal_cons]

theorem verTokens_dot_cons (b : Str) :
    verTokens ('.' :: b) = .inr '.' :: verTokens b := by
  simp only [verTokens]
  rw [if_neg (by decide)]

theorem verTokens_two_comp : ∀ (a b : Str), (∀ c ∈ a, c.isDigit = true) →
    b ≠ [] → (∀ c ∈ b, c.isDigit = true) → a ≠ [] →
    verTokens (a ++ '.' :: b) =
      [.inl (digitsVal a, a.length), .inr '.', .inl (digitsVal b, b.length)]
  | [], _, _, _, _, hne => absurd rfl hne
  | [c], b, ha, hbne, hb, _ => by
    rw [List.cons_append, List.nil_append, verTokens, if_pos (ha c (by simp)),
      verTokens_dot_cons, verTokens_digits b hbne hb]
    simp [digitsVal_cons, digitsVal]
  | c :: c2 :: t, b, ha, hbne, hb, _ => by
    have ih := verTokens_two_comp (c2 :: t) b (fun x hx => ha x (by simp [hx])) hbne hb
      (by simp)
    rw [List.cons_append, verTokens, if_pos (ha c (by simp)), ih]
    simp [digitsVal_cons]

theorem ordering_then_eq (o : Ordering) : o.then Ordering.eq = o := by
  cases o <;> rfl

theorem verCmp_two_comp (a b c d : Str)
    (hane : a ≠ []) (ha : ∀ x ∈ a, x.isDigit = true)
    (hbne : b ≠ []) (hb : ∀ x ∈ b, x.isDigit = true)
    (hcne : c ≠ []) (hc : ∀ x ∈ c, x.isDigit = true)
    (hdne : d ≠ []) (hd : ∀ x ∈ d, x.isDigit = true) :
    verCmp (a ++ '.' :: b) (c ++ '.' :: d) =
      (compare (digitsVal a) (digitsVal c)).then
        (compare (digitsVal b) (digitsVal d)) := by
  rw [verCmp, verTokens_two_comp a b ha hbne hb hane,
    verTokens_two_comp c d hc hdne hd hcne]
  show (compare (digitsVal a) (digitsVal c)).then
      ((compare '.' '.').then ((compare (digitsVal b) (digitsVal d)).then
        (tokCmp [] []))) = _
  rw [show compare '.' '.' = Ordering.eq from by decide]
  show (compare (digitsVal a) (digitsVal c)).then
      ((compare (digitsVal b) (digitsVal d)).then Ordering.eq) = _
  rw [ordering_then_eq]

theorem digit_ne_dot {c : Char} (h : c.isDigit = true) : c ≠ '.' :=
  fun he => by rw [he] at h; exact absurd h (by decide)

theorem digit_ne_zero_char {c : Char} (h : c ≠ '0') : (c == '0') = false := by
  simpa using h

theorem padOneF_cons_nondot (f : Nat) (c : Char) (t : Str) (h : c ≠ '.') :
    padOneF (f + 1) (c :: t) = c :: padOneF f t := by
  rw [padOneF.eq_def]
  split
  · omega
  · rename_i n heqf heql
    exact absurd heql (by simp)
  · rename_i fv n t2 heqf heql
    obtain ⟨rfl, rfl⟩ : n = c ∧ t2 = t := by
      injection heql with h1 h2
      exact ⟨h1.symm, h2.symm⟩
    obtain rfl : fv = f := by omega
    rw [if_neg h]

theorem padTwoF_cons_nondot (f : Nat) (c : Char) (t : Str) (h : c ≠ '.') :
    padTwoF (f + 1) (c :: t) = c :: padTwoF f t := by
  rw [padTwoF.eq_def]
  split
  · omega
  · rename_i n heqf heql
    exact absurd heql (by simp)
  · rename_i fv n t2 heqf heql
    obtain ⟨rfl, rfl⟩ : n = c ∧ t2 = t := by
      injection heql with h1 h2
      exact ⟨h1.symm, h2.symm⟩
    obtain rfl : fv = f := by omega
    rw [if_neg h]

theorem stripZerosF_cons_nondot (f : Nat) (c : Char) (t : Str) (h : c ≠ '.') :
    stripZerosF (f + 1) (c :: t) = c :: stripZerosF f t := by
  rw [stripZerosF.eq_def]
  split
  · omega
  · rename_i n heqf heql
    exact absurd heql (by simp)
  · rename_i fv n t2 heqf heql
    obtain ⟨rfl, rfl⟩ : n = c ∧ t2 = t := by
      injection heql with h1 h2
      exact ⟨h1.symm, h2.symm⟩
    obtain rfl : fv = f := by omega
    rw [if_neg h]

theorem padOneF_digits_walk : ∀ (a : Str) (f : Nat) (t : Str),
    (∀ c ∈ a, c.isDigit = true) →
    padOneF (a.length + f) (a ++ t) = a ++ padOneF f t
  | [], f, t, _ => by simp
  | c :: a', f, t, ha => by
    rw [List.cons_append, List.length_cons,
      show a'.length + 1 + f = (a'.length + f) + 1 from by omega,
      padOneF_cons_nondot _ _ _ (digit_ne_dot (ha c (by simp))),
      padOneF_digits_walk a' f t (fun x hx => ha x (by simp [hx]))]
    rfl

theorem padTwoF_digits_walk : ∀ (a : Str) (f : Nat) (t : Str),
    (∀ c ∈ a, c.isDigit = true) →
    padTwoF (a.length + f) (a ++ t) = a ++ padTwoF f t
  | [], f, t, _ => by simp
  | c :: a', f, t, ha => by
    rw [List.cons_append, List.length_cons,
      show a'.length + 1 + f = (a'.length + f) + 1 from by omega,
      padTwoF_cons_nondot _ _ _ (digit_ne_dot (ha c (by simp))),
      padTwoF_digits_walk a' f t (fun x hx => ha x (by simp [hx]))]
    rfl

theorem stripZerosF_digits_walk : ∀ (a : Str) (f : Nat) (t : Str),
    (∀ c ∈ a, c.isDigit = true) →
    stripZerosF (a.length + f) (a ++ t) = a ++ stripZerosF f t
  | [], f, t, _ => by simp
  | c :: a', f, t, ha => by
    rw [List.cons_append, List.length_cons,
      show a'.length + 1 + f = (a'.length + f) + 1 from by omega,
      stripZerosF_cons_nondot _ _ _ (digit_ne_dot (ha c (by simp))),
      stripZerosF_digits_walk a' f t (fun x hx => ha x (by simp [hx]))]
    rfl

theorem padOneF_digits_id (b : Str) (hb : ∀ c ∈ b, c.isDigit = true) :
    padOneF b.length b = b := by
  have h := padOneF_digits_walk b 0 [] hb
  simpa [show padOneF 0 ([] : Str) = [] from rfl] using h

theorem padTwoF_digits_id (b : Str) (hb : ∀ c ∈ b, c.isDigit = true) :
    padTwoF b.length b = b := by
  have h := padTwoF_digits_walk b 0 [] hb
  simpa [show padTwoF 0 ([] : Str) = [] from rfl] using h

theorem stripZerosF_digits_id (b : Str) (hb : ∀ c ∈ b, c.isDigit = true) :
    stripZerosF b.length b = b := by
  have h := stripZerosF_digits_walk b 0 [] hb
  simpa [show stripZerosF 0 ([] : Str) = [] from rfl] using h

theorem padOneF_cons_dot (f : Nat) (t : Str) :
    padOneF (f + 1) ('.' :: t) =
      match t with
      | [] => ['.']
      | d :: t2 =>
        if d.isDigit = true then
          match t2 with
          | [] => ['.', '0', '0', d]
          | r :: rest2 =>
            if r = '.' then '.' :: '0' :: '0' :: d :: '.' :: padOneF f rest2
            else '.' :: padOneF f (d :: r :: rest2)
        else '.' :: padOneF f (d :: t2) := by
  rw [padOneF.eq_def]
  split
  · omega
  · rename_i n heqf heql
    exact absurd heql (by simp)
  · rename_i fv n t2 heqf heql
    obtain ⟨rfl, rfl⟩ : n = '.' ∧ t2 = t := by
      injection heql with h1 h2
      exact ⟨h1.symm, h2.symm⟩
    obtain rfl : fv = f := by omega
    rw [if_pos rfl]
    rfl

theorem padTwoF_cons_dot (f : Nat) (t : Str) :
    padTwoF (f + 1) ('.' :: t) =
      match t with
      | d1 :: d2 :: t2 =>
        if d1.isDigit && d2.isDigit then
          match t2 with
          | [] => ['.', '0', d1, d2]
          | r :: rest2 =>
            if r = '.' then '.' :: '0' :: d1 :: d2 :: '.' :: padTwoF f rest2
            else '.' :: padTwoF f (d1 :: d2 :: r :: rest2)
        else '.' :: padTwoF f (d1 :: d2 :: t2)
      | _ => '.' :: padTwoF f t := by
  rw [padTwoF.eq_def]
  split
  · omega
  · rename_i n heqf heql
    exact absurd heql (by simp)
  · rename_i fv n t2 heqf heql
    obtain ⟨rfl, rfl⟩ : n = '.' ∧ t2 = t := by
      injection heql with h1 h2
      exact ⟨h1.symm, h2.symm⟩
    obtain rfl : fv = f := by omega
    rw [if_pos rfl]
    rfl

theorem stripZerosF_cons_dot (f : Nat) (t : Str) :
    stripZerosF (f + 1) ('.' :: t) =
      match t with
      | [] => ['.']
      | d :: t2 =>
        if d = '0' then '.' :: stripZerosF f (t2.dropWhile (· == '0'))
        else '.' :: stripZerosF f t := by
  rw [stripZerosF.eq_def]
  split
  · omega
  · rename_i n heqf heql
    exact absurd heql (by simp)
  · rename_i fv n t2 heqf heql
    obtain ⟨rfl, rfl⟩ : n = '.' ∧ t2 = t := by
      injection heql with h1 h2
      exact ⟨h1.symm, h2.symm⟩
    obtain rfl : fv = f := by omega
    rw [if_pos rfl]
    rfl

theorem padOne_two_comp (a b : Str) (ha : ∀ c ∈ a, c.isDigit = true)
    (hbne : b ≠ []) (hb : ∀ c ∈ b, c.isDigit = true) (hlen : b.length ≤ 3) :
    padOne (a ++ '.' :: b) =
      a ++ '.' :: (if b.length = 1 then '0' :: '0' :: b else b) := by
  rw [padOne, show (a ++ '.' :: b).length = a.length + (b.length + 1) from by simp,
    padOneF_digits_walk a _ _ ha]
  congr 1
  rcases b with _ | ⟨b1, b⟩
  · exact absurd rfl hbne
  rcases b with _ | ⟨b2, b⟩
  · rw [padOneF_cons_dot]
    simp [hb b1 (by simp)]
  rcases b with _ | ⟨b3, b⟩
  · rw [padOneF_cons_dot]
    have h1 := hb b1 (by simp)
    have h2 := hb b2 (by simp)
    simp only [h1, if_true]
    rw [if_neg (digit_ne_dot h2), padOneF_digits_id [b1, b2] hb]
    simp
  · have hb0 : b = [] := by
      simp only [List.length_cons] at hlen
      have : b.length = 0 := by omega
      exact List.eq_nil_of_length_eq_zero this
    subst hb0
    rw [padOneF_cons_dot]
    have h1 := hb b1 (by simp)
    have h2 := hb b2 (by simp)
    have h3 := hb b3 (by simp)
    simp only [h1, if_true]
    rw [if_neg (digit_ne_dot h2), padOneF_digits_id [b1, b2, b3] hb]
    simp

theorem padOneF_digits_any : ∀ (f : Nat) (b : Str), (∀ c ∈ b, c.isDigit = true) →
    padOneF f b = b
  | 0, _, _ => rfl
  | _ + 1, [], _ => rfl
  | f + 1, c :: t, hb => by
    rw [padOneF_cons_nondot _ _ _ (digit_ne_dot (hb c (by simp))),
      padOneF_digits_any f t (fun x hx => hb x (by simp [hx]))]

theorem padTwoF_digits_any : ∀ (f : Nat) (b : Str), (∀ c ∈ b, c.isDigit = true) →
    padTwoF f b = b
  | 0, _, _ => rfl
  | _ + 1, [], _ => rfl
  | f + 1, c :: t, hb => by
    rw [padTwoF_cons_nondot _ _ _ (digit_ne_dot (hb c (by simp))),
      padTwoF_digits_any f t (fun x hx => hb x (by simp [hx]))]

theorem stripZerosF_digits_any : ∀ (f : Nat) (b : Str), (∀ c ∈ b, c.isDigit = true) →
    stripZerosF f b = b
  | 0, _, _ => rfl
  | _ + 1, [], _ => rfl
  | f + 1, c :: t, hb => by
    rw [stripZerosF_cons_nondot _ _ _ (digit_ne_dot (hb c (by simp))),
      stripZerosF_digits_any f t (fun x hx => hb x (by simp [hx]))]

theorem padLine_two_comp (a b : Str) (ha : ∀ c ∈ a, c.isDigit = true)
    (hbne : b ≠ []) (hb : ∀ c ∈ b, c.isDigit = true) (hlen : b.length ≤ 3) :
    padLine (a ++ '.' :: b) = a ++ '.' :: pad3zeros b := by
  rw [padLine, padOne_two_comp a b ha hbne hb hlen]
  rcases b with _ | ⟨b1, b⟩
  · exact absurd rfl hbne
  rcases b with _ | ⟨b2, b⟩
  · -- one digit: padOne produced `.00b1`; padTwo leaves it alone
    have h1 := hb b1 (by simp)
    rw [if_pos (by simp : ([b1] : Str).length = 1)]
    rw [padTwo, show (a ++ '.' :: '0' :: '0' :: [b1]).length = a.length + (3 + 1) from by simp,
      padTwoF_digits_walk a _ _ ha, padTwoF_cons_dot]
    simp only []
    rw [if_pos (by decide : ((('0' : Char).isDigit && ('0' : Char).isDigit)) = true)]
    rw [if_neg (digit_ne_dot h1)]
    rw [padTwoF_digits_any 3 ['0', '0', b1] (by
      intro x hx
      simp only [List.mem_cons, List.not_mem_nil, or_false] at hx
      rcases hx with rfl | rfl | rfl
      · decide
      · decide
      · exact h1)]
    simp [pad3zeros]
  rcases b with _ | ⟨b3, b⟩
  · -- two digits: padTwo pads to `.0b1b2`
    have h1 := hb b1 (by simp)
    have h2 := hb b2 (by simp)
    rw [if_neg (by simp : ¬([b1, b2] : Str).length = 1)]
    rw [padTwo, show (a ++ '.' :: [b1, b2]).length = a.length + (2 + 1) from by simp,
      padTwoF_digits_walk a _ _ ha, padTwoF_cons_dot]
    simp only []
    rw [if_pos (by simp [h1, h2] : (b1.isDigit && b2.isDigit) = true)]
    simp [pad3zeros]
  · have hb0 : b = [] := by
      simp only [List.length_cons] at hlen
      have : b.length = 0 := by omega
      exact List.eq_nil_of_length_eq_zero this
    subst hb0
    have h1 := hb b1 (by simp)
    have h2 := hb b2 (by simp)
    have h3 := hb b3 (by simp)
    rw [if_neg (by simp : ¬([b1, b2, b3] : Str).length = 1)]
    rw [padTwo, show (a ++ '.' :: [b1, b2, b3]).length = a.length + (3 + 1) from by simp,
      padTwoF_digits_walk a _ _ ha, padTwoF_cons_dot]
    simp only []
    rw [if_pos (by simp [h1, h2] : (b1.isDigit && b2.isDigit) = true)]
    rw [if_neg (digit_ne_dot h3)]
    rw [padTwoF_digits_any 3 [b1, b2, b3] hb]
    simp [pad3zeros]

theorem strip_pad_two_comp (a b : Str) (ha : ∀ c ∈ a, c.isDigit = true)
    (hbne : b ≠ []) (hb : ∀ c ∈ b, c.isDigit = true) (hlen : b.length ≤ 3)
    (hb0 : b.head? ≠ some '0') :
    stripPadZeros (a ++ '.' :: pad3zeros b) = a ++ '.' :: b := by
  rcases b with _ | ⟨b1, b⟩
  · exact absurd rfl hbne
  have hb1 : b1 ≠ '0' := fun he => hb0 (by simp [he])
  have h1 := hb b1 (by simp)
  rcases b with _ | ⟨b2, b⟩
  · rw [show pad3zeros [b1] = ['0', '0', b1] from rfl, stripPadZeros,
      show (a ++ '.' :: ['0', '0', b1]).length = a.length + (3 + 1) from by simp,
      stripZerosF_digits_walk a _ _ ha]
    congr 1
    rw [stripZerosF_cons_dot]
    simp only []
    rw [if_pos trivial,
      show (['0', b1] : Str).dropWhile (· == '0') = [b1] from by
        rw [List.dropWhile_cons_of_pos (by decide),
          List.dropWhile_cons_of_neg (by simpa using hb1)],
      stripZerosF_digits_any 3 [b1] (by simpa using h1)]
  have h2 := hb b2 (by simp)
  rcases b with _ | ⟨b3, b⟩
  · rw [show pad3zeros [b1, b2] = ['0', b1, b2] from rfl, stripPadZeros,
      show (a ++ '.' :: ['0', b1, b2]).length = a.length + (3 + 1) from by simp,
      stripZerosF_digits_walk a _ _ ha]
    congr 1
    rw [stripZerosF_cons_dot]
    simp only []
    rw [if_pos trivial,
      show ([b1, b2] : Str).dropWhile (· == '0') = [b1, b2] from
        List.dropWhile_cons_of_neg (by simpa using hb1),
      stripZerosF_digits_any 3 [b1, b2] (by
        intro x hx
        simp only [List.mem_cons, List.not_mem_nil, or_false] at hx
        rcases hx with rfl | rfl
        · exact h1
        · exact h2)]
  have h3 := hb b3 (by simp)
  have hnil : b = [] := by
    simp only [List.length_cons] at hlen
    have : b.length = 0 := by omega
    exact List.eq_nil_of_length_eq_zero this
  subst hnil
  rw [show pad3zeros [b1, b2, b3] = [b1, b2, b3] from rfl, stripPadZeros,
    show (a ++ '.' :: [b1, b2, b3]).length = a.length + (3 + 1) from by simp,
    stripZerosF_digits_walk a _ _ ha]
  congr 1
  rw [stripZerosF_cons_dot]
  simp only []
  rw [if_neg hb1, stripZerosF_digits_any 3 [b1, b2, b3] hb]

theorem digitsVal_replicate_zero (k : Nat) (b : Str) :
    digitsVal (List.replicate k '0' ++ b) = digitsVal b := by
  induction k with
  | zero => rfl
  | succ n ih =>
    rw [List.replicate_succ, List.cons_append, digitsVal_cons,
      show ('0' : Char).toNat - 48 = 0 from rfl, ih]
    simp

theorem gnumParts_dot (a r2 : Str) (ha : ∀ c ∈ a, c.isDigit = true) :
    gnumParts (a ++ '.' :: r2) =
      (digitsVal a, digitsVal (r2.takeWhile Char.isDigit),
        (r2.takeWhile Char.isDigit).length) := by
  simp only [gnumParts, takeWhile_digits_append a r2 ha, List.drop_left]

theorem gnumParts_padded (a b : Str) (ha : ∀ c ∈ a, c.isDigit = true)
    (_hbne : b ≠ []) (hb : ∀ c ∈ b, c.isDigit = true) (hlen : b.length ≤ 3) :
    gnumParts (a ++ '.' :: pad3zeros b) = (digitsVal a, digitsVal b, 3) := by
  have hpd : ∀ c ∈ pad3zeros b, c.isDigit = true := by
    intro c hc
    rcases List.mem_append.mp hc with h | h
    · rw [List.eq_of_mem_replicate h]; decide
    · exact hb c h
  rw [gnumParts_dot a (pad3zeros b) ha, takeWhile_digits _ hpd,
    show digitsVal (pad3zeros b) = digitsVal b from digitsVal_replicate_zero _ b,
    show (pad3zeros b).length = 3 from by
      simp only [pad3zeros, List.length_append, List.length_replicate]; omega]

theorem bytesLE_refl (l : Str) : bytesLE l l = true := by
  induction l with
  | nil => rfl
  | cons c t ih => rw [bytesLE]; simp [ih]

theorem gnumLT_padded_iff (a b c d : Str)
    (ha : ∀ x ∈ a, x.isDigit = true) (hbne : b ≠ []) (hb : ∀ x ∈ b, x.isDigit = true)
    (hblen : b.length ≤ 3)
    (hc : ∀ x ∈ c, x.isDigit = true) (hdne : d ≠ []) (hd : ∀ x ∈ d, x.isDigit = true)
    (hdlen : d.length ≤ 3) :
    gnumLT (a ++ '.' :: pad3zeros b) (c ++ '.' :: pad3zeros d) =
      decide (digitsVal a * 1000000 + digitsVal b * 1000
        < digitsVal c * 1000000 + digitsVal d * 1000) := by
  rw [gnumLT, gnumParts_padded a b ha hbne hb hblen,
    gnumParts_padded c d hc hdne hd hdlen]
  simp only [decide_eq_decide]
  norm_num

theorem gnum_ver_agree (a b c d : Str)
    (h1 : canonCompB a = true) (h2 : canonCompB b = true)
    (h3 : canonCompB c = true) (h4 : canonCompB d = true) :
    gnumLE (padLine (a ++ '.' :: b)) (padLine (c ++ '.' :: d)) =
      verLE (a ++ '.' :: b) (c ++ '.' :: d) := by
  obtain ⟨hane, halen, had, hah⟩ := canonCompB_spec a h1
  obtain ⟨hbne, hblen, hbd, hbh⟩ := canonCompB_spec b h2
  obtain ⟨hcne, hclen, hcd, hch⟩ := canonCompB_spec c h3
  obtain ⟨hdne, hdlen, hdd, hdh⟩ := canonCompB_spec d h4
  rw [padLine_two_comp a b had hbne hbd hblen, padLine_two_comp c d hcd hdne hdd hdlen,
    verLE, verCmp_two_comp a b c d hane had hbne hbd hcne hcd hdne hdd, gnumLE,
    gnumLT_padded_iff a b c d had hbne hbd hblen hcd hdne hdd hdlen,
    gnumLT_padded_iff c d a b hcd hdne hdd hdlen had hbne hbd hblen]
  have hb3 : digitsVal b < 1000 := lt_of_lt_of_le (digitsVal_lt b hbd)
    (le_trans (Nat.pow_le_pow_right (by omega) hblen) (by norm_num))
  have hd3 : digitsVal d < 1000 := lt_of_lt_of_le (digitsVal_lt d hdd)
    (le_trans (Nat.pow_le_pow_right (by omega) hdlen) (by norm_num))
  rcases Nat.lt_trichotomy (digitsVal a) (digitsVal c) with hlt | heq | hgt
  · rw [Nat.compare_eq_lt.mpr hlt, if_pos (by simp only [decide_eq_true_eq]; omega)]
    rfl
  · rw [Nat.compare_eq_eq.mpr heq]
    rcases Nat.lt_trichotomy (digitsVal b) (digitsVal d) with hbl | hbe | hbg
    · rw [Nat.compare_eq_lt.mpr hbl, if_pos (by simp only [decide_eq_true_eq]; omega)]
      rfl
    · obtain rfl : a = c := canon_digitsVal_inj a c h1 h3 heq
      obtain rfl : b = d := canon_digitsVal_inj b d h2 h4 hbe
      rw [Nat.compare_eq_eq.mpr rfl, if_neg (by simp), if_neg (by simp), bytesLE_refl]
      rfl
    · rw [Nat.compare_eq_gt.mpr hbg, if_neg (by simp only [decide_eq_true_eq]; omega),
        if_pos (by simp only [decide_eq_true_eq]; omega)]
      rfl
  · rw [Nat.compare_eq_gt.mpr hgt, if_neg (by simp only [decide_eq_true_eq]; omega),
      if_pos (by simp only [decide_eq_true_eq]; omega)]
    rfl

theorem orderedInsert_map_agree (le1 le2 : Str → Str → Bool) (f : Str → Str) (x : Str) :
    ∀ (l : List Str), (∀ y ∈ l, le2 (f x) (f y) = le1 x y) →
    List.orderedInsert (fun u v => le2 u v = true) (f x) (l.map f) =
      (List.orderedInsert (fun u v => le1 u v = true) x l).map f
  | [], _ => rfl
  | y :: t, h => by
    rw [List.map_cons, List.orderedInsert, List.orderedInsert]
    by_cases hcm : le1 x y = true
    · rw [if_pos (by rw [h y (by simp)]; exact hcm), if_pos hcm, List.map_cons,
        List.map_cons]
    · rw [if_neg (by rw [h y (by simp)]; exact hcm), if_neg hcm, List.map_cons,
        orderedInsert_map_agree le1 le2 f x t (fun z hz => h z (by simp [hz]))]

theorem insertionSort_map_agree (le1 le2 : Str → Str → Bool) (f : Str → Str) :
    ∀ (l : List Str), (∀ x ∈ l, ∀ y ∈ l, le2 (f x) (f y) = le1 x y) →
    List.insertionSort (fun u v => le2 u v = true) (l.map f) =
      (List.insertionSort (fun u v => le1 u v = true) l).map f
  | [], _ => rfl
  | x :: t, h => by
    rw [List.map_cons, List.insertionSort, List.insertionSort,
      insertionSort_map_agree le1 le2 f t
        (fun p hp q hq => h p (by simp [hp]) q (by simp [hq]))]
    exact orderedInsert_map_agree le1 le2 f x (List.insertionSort _ t)
      (fun y hy => h x (by simp) y
        (List.mem_cons_of_mem x ((List.perm_insertionSort _ t).subset hy)))

/-- C10 (amended): the claim that the fallback pad/sort/strip pipeline
of `_version_sort` orders any version list exactly as the native
`sort --version-sort` branch is refuted by `c10_counterexample`
(three-component versions diverge: the fallback puts `1.9.10` before
`1.9.2`). The agreement does hold on the restricted domain of
two-component dotted versions whose components are canonical decimal
numerals of one to three digits with no leading zero: there the two
branches of `_version_sort` produce identical output. -/
theorem c10_two_component_sort_agree (l : List Str)
    (h : ∀ v ∈ l, ∃ a b, v = a ++ '.' :: b ∧ canonCompB a = true ∧ canonCompB b = true) :
    fallback_version_sort l = native_version_sort l := by
  have hagree : ∀ x ∈ l, ∀ y ∈ l, gnumLE (padLine x) (padLine y) = verLE x y := by
    intro x hx y hy
    obtain ⟨a, b, rfl, ha, hb⟩ := h x hx
    obtain ⟨c, d, rfl, hc, hd⟩ := h y hy
    exact gnum_ver_agree a b c d ha hb hc hd
  rw [fallback_version_sort, insertionSort_map_agree verLE gnumLE padLine l hagree,
    List.map_map, native_version_sort]
  have hid : ∀ v ∈ List.insertionSort (fun x y => verLE x y = true) l,
      (stripPadZeros ∘ padLine) v = id v := by
    intro v hv
    obtain ⟨a, b, rfl, ha, hb⟩ := h v ((List.perm_insertionSort _ l).subset hv)
    obtain ⟨hane, halen, had, hah⟩ := canonCompB_spec a ha
    obtain ⟨hbne, hblen, hbd, hbh⟩ := canonCompB_spec b hb
    show stripPadZeros (padLine (a ++ '.' :: b)) = a ++ '.' :: b
    rw [padLine_two_comp a b had hbne hbd hblen]
    exact strip_pad_two_comp a b had hbne hbd hblen hbh
  rw [List.map_congr_left hid, List.map_id]

theorem c10_two_component_sort_agree_witness :
    fallback_version_sort [str "1.10", str "1.9", str "2.1"] =
      native_version_sort [str "1.10", str "1.9", str "2.1"] :=
  c10_two_component_sort_agree [str "1.10", str "1.9", str "2.1"] (by
    intro v hv
    simp only [List.mem_cons, List.not_mem_nil, or_false] at hv
    rcases hv with rfl | rfl | rfl
    · exact ⟨['1'], ['1', '0'], by decide, by decide, by decide⟩
    · exact ⟨['1'], ['9'], by decide, by decide, by decide⟩
    · exact ⟨['2'], ['1'], by decide, by decide, by decide⟩)
